import Mathlib

/-!
# Verification of the `cure` terminal command-routing engine

Shallow embedding of the command index (radix tree), suggestion matcher,
dispatch logic, runner strategies, and signal-handler lifecycle of the
`pkg/terminal` package, together with proofs of the specification claims.

Command names are Go byte strings; we model them as `List Char`, which is
faithful because every algorithm involved only compares elements for
equality and measures lengths.
-/

set_option autoImplicit false

namespace Cure

/-- A command name (Go `string`, treated as a byte sequence). -/
abbrev Name := List Char

/-- Embeds `commonPrefixLen` from `router_tree.go`: the length of the longest
common leading segment of two strings.  The Go loop scans indices `0..min`
and returns the first mismatch position (or `min`); the recursion below
computes the same value. -/
def commonPrefixLen : Name → Name → Nat
  | a :: as, b :: bs => if a = b then commonPrefixLen as bs + 1 else 0
  | _, _ => 0

/-- Embeds Go `strings.HasPrefix s p` (is `p` a leading segment of `s`). -/
def hasPre : Name → Name → Bool
  | _, [] => true
  | [], _ :: _ => false
  | a :: as, b :: bs => a = b && hasPre as bs

/-- A radix-tree node (`node` in `router_tree.go`).  `label` is the edge
label (`prefix` in the source; renamed because Lean reserves that word),
`command` merges the source's `command`/`isEnd` pair (`some` iff `isEnd`,
commands being non-nil interface values at every insertion site), and
`children` is the map from first byte of each child's label to the child,
embedded as an association list. -/
inductive Node (α : Type) where
  | mk (label : Name) (command : Option α) (children : List (Char × Node α))

namespace Node

variable {α : Type}

/-- Edge label of a node. -/
def label : Node α → Name
  | .mk l _ _ => l

/-- Stored command of a node (`some` iff the source's `isEnd`). -/
def command : Node α → Option α
  | .mk _ c _ => c

/-- Child map of a node, as an association list keyed by first byte. -/
def children : Node α → List (Char × Node α)
  | .mk _ _ cs => cs

@[simp] theorem label_mk (l : Name) (c : Option α) (cs : List (Char × Node α)) :
    (Node.mk l c cs).label = l := rfl

@[simp] theorem command_mk (l : Name) (c : Option α) (cs : List (Char × Node α)) :
    (Node.mk l c cs).command = c := rfl

@[simp] theorem children_mk (l : Name) (c : Option α) (cs : List (Char × Node α)) :
    (Node.mk l c cs).children = cs := rfl

/-- Go map read `n.children[b]` on the association-list embedding. -/
def lookupChild : List (Char × Node α) → Char → Option (Node α)
  | [], _ => none
  | (k, c) :: rest, b => if k = b then some c else lookupChild rest b

/-- Go map write `n.children[b] = c` on the association-list embedding. -/
def setChild : List (Char × Node α) → Char → Node α → List (Char × Node α)
  | [], b, c => [(b, c)]
  | (k, c₀) :: rest, b, c =>
      if k = b then (b, c) :: rest else (k, c₀) :: setChild rest b c

theorem lookupChild_sizeOf {cs : List (Char × Node α)} {b : Char} {c : Node α}
    (h : lookupChild cs b = some c) : sizeOf c < sizeOf cs := by
  induction cs with
  | nil => simp [lookupChild] at h
  | cons hd tl ih =>
    obtain ⟨k, c₀⟩ := hd
    simp only [lookupChild] at h
    split at h
    · cases h
      simp
      omega
    · have := ih h
      simp
      omega

/-- Replaces a node's edge label (the Go mutation `child.prefix = oldSuffix`). -/
def withLabel : Node α → Name → Node α
  | .mk _ c cs, l => .mk l c cs

/-- Embeds `node.search` from `router_tree.go`: exact-match traversal.
Empty remaining name: return the stored command iff terminal.  Otherwise
follow the child keyed by the first byte, require its whole edge label to
be a leading segment of the name, and continue past it. -/
def search : Node α → Name → Option α
  | .mk _ c _, [] => c
  | .mk _ _ cs, b :: rest =>
    match h : lookupChild cs b with
    | none => none
    | some child =>
      if hasPre (b :: rest) child.label then
        search child ((b :: rest).drop child.label.length)
      else
        none
termination_by n _ => sizeOf n
decreasing_by
  simp only [Node.mk.sizeOf_spec]
  have := lookupChild_sizeOf h
  omega

/-- Embeds `node.insert` from `router_tree.go`.  Go panics on duplicate
registration; the embedding returns `none` there.  Unreachable partial
operations (indexing `oldSuffix[0]` / `newSuffix[0]`, which the split
branch guarantees non-empty) also map to `none`. -/
def insert : Node α → Name → α → Option (Node α)
  | .mk lbl cmd cs, [], c =>
    match cmd with
    | some _ => none
    | none => some (.mk lbl (some c) cs)
  | .mk lbl cmd cs, b :: rest, c =>
    match h : lookupChild cs b with
    | none =>
      some (.mk lbl cmd (setChild cs b (.mk (b :: rest) (some c) [])))
    | some child =>
      let k := commonPrefixLen (b :: rest) child.label
      if k = child.label.length then
        match insert child ((b :: rest).drop k) c with
        | none => none
        | some child' => some (.mk lbl cmd (setChild cs b child'))
      else
        let oldSuffix := child.label.drop k
        let newSuffix := (b :: rest).drop k
        match oldSuffix with
        | [] => none
        | o :: os =>
          let moved := withLabel child (o :: os)
          let splitBase : List (Char × Node α) := [(o, moved)]
          match newSuffix with
          | [] =>
            some (.mk lbl cmd
              (setChild cs b (.mk (child.label.take k) (some c) splitBase)))
          | nh :: nt =>
            some (.mk lbl cmd
              (setChild cs b (.mk (child.label.take k) none
                (setChild splitBase nh (.mk (nh :: nt) (some c) [])))))
termination_by n _ _ => sizeOf n
decreasing_by
  simp only [Node.mk.sizeOf_spec]
  have := lookupChild_sizeOf h
  omega

/-- Thinness invariant maintained by `insert` and relied on by lookup
reasoning: every child registered under key byte `b` has a non-empty edge
label starting with `b` (the source's "children maps the first byte of each
child's prefix to the child node"). -/
inductive Wf : Node α → Prop where
  | intro (n : Node α)
      (hhead : ∀ b c, lookupChild n.children b = some c →
        c.label.head? = some b)
      (hwf : ∀ b c, lookupChild n.children b = some c → Wf c) : Wf n

theorem Wf.head_spec {n : Node α} (hw : Wf n) :
    ∀ b c, lookupChild n.children b = some c → c.label.head? = some b := by
  cases hw with
  | intro n hhead hwf => exact hhead

theorem Wf.wf_spec {n : Node α} (hw : Wf n) :
    ∀ b c, lookupChild n.children b = some c → Wf c := by
  cases hw with
  | intro n hhead hwf => exact hwf

@[simp] theorem search_nil (l : Name) (c : Option α) (cs : List (Char × Node α)) :
    search (Node.mk l c cs) [] = c := by
  rw [search]

theorem search_cons_none {cs : List (Char × Node α)} {b : Char}
    (h : lookupChild cs b = none) (l : Name) (c : Option α) (rest : Name) :
    search (Node.mk l c cs) (b :: rest) = none := by
  rw [search]
  split <;> simp_all

theorem search_cons_some {cs : List (Char × Node α)} {b : Char} {child : Node α}
    (h : lookupChild cs b = some child) (l : Name) (c : Option α) (rest : Name) :
    search (Node.mk l c cs) (b :: rest) =
      if hasPre (b :: rest) child.label then
        search child ((b :: rest).drop child.label.length)
      else none := by
  rw [search]
  split <;> simp_all

theorem search_withLabel (c : Node α) (l : Name) (t : Name) :
    search (withLabel c l) t = search c t := by
  cases c with
  | mk lbl cmd cs =>
    cases t with
    | nil => simp [withLabel]
    | cons b rest =>
      cases h : lookupChild cs b with
      | none => rw [withLabel, search_cons_none h, search_cons_none h]
      | some child => rw [withLabel, search_cons_some h, search_cons_some h]

theorem lookupChild_setChild (cs : List (Char × Node α)) (b : Char) (c : Node α)
    (b' : Char) :
    lookupChild (setChild cs b c) b' =
      if b = b' then some c else lookupChild cs b' := by
  induction cs with
  | nil => simp [setChild, lookupChild]
  | cons hd tl ih =>
    obtain ⟨k, c₀⟩ := hd
    by_cases hk : k = b
    · subst hk
      rw [setChild, if_pos rfl, lookupChild, lookupChild]
      by_cases hb : k = b' <;> simp [hb]
    · rw [setChild, if_neg hk, lookupChild, lookupChild, ih]
      by_cases hkb : k = b'
      · subst hkb
        have hbk : ¬ b = k := fun h => hk h.symm
        simp [hbk]
      · simp [hkb]

theorem search_cons_eq_of_lookup_eq {cs cs' : List (Char × Node α)} {b : Char}
    (h : lookupChild cs' b = lookupChild cs b) (l l' : Name) (cO cO' : Option α)
    (rest : Name) :
    search (Node.mk l' cO' cs') (b :: rest) = search (Node.mk l cO cs) (b :: rest) := by
  cases hl : lookupChild cs b with
  | none =>
    rw [search_cons_none hl, search_cons_none (h.trans hl)]
  | some child =>
    rw [search_cons_some hl, search_cons_some (h.trans hl)]

theorem wf_withLabel {c : Node α} (hw : Wf c) (l : Name) : Wf (withLabel c l) := by
  cases c with
  | mk lbl cmd cs =>
    exact Wf.intro _ (fun b ch h => hw.head_spec b ch h) (fun b ch h => hw.wf_spec b ch h)

@[simp] theorem label_withLabel (c : Node α) (l : Name) : (withLabel c l).label = l := by
  cases c
  rfl

theorem insert_nil_none (l : Name) (cs : List (Char × Node α)) (cmd : α) :
    insert (Node.mk l none cs) [] cmd = some (Node.mk l (some cmd) cs) := by
  rw [insert]

theorem insert_cons_nochild {cs : List (Char × Node α)} {b : Char}
    (h : lookupChild cs b = none) (l : Name) (cO : Option α) (rest : Name) (cmd : α) :
    insert (Node.mk l cO cs) (b :: rest) cmd =
      some (Node.mk l cO (setChild cs b (Node.mk (b :: rest) (some cmd) []))) := by
  rw [insert]
  split <;> simp_all

theorem insert_cons_recurse {cs : List (Char × Node α)} {b : Char} {child : Node α}
    (h : lookupChild cs b = some child) (rest : Name)
    (hk : commonPrefixLen (b :: rest) child.label = child.label.length)
    (l : Name) (cO : Option α) (cmd : α) :
    insert (Node.mk l cO cs) (b :: rest) cmd =
      match insert child ((b :: rest).drop (commonPrefixLen (b :: rest) child.label)) cmd with
      | none => none
      | some child' => some (Node.mk l cO (setChild cs b child')) := by
  rw [insert]
  split
  · simp_all
  · next h' =>
    rw [h] at h'
    cases h'
    rw [if_pos hk]

theorem insert_cons_split_nil {cs : List (Char × Node α)} {b : Char} {child : Node α}
    (h : lookupChild cs b = some child) (rest : Name)
    (hk : ¬ commonPrefixLen (b :: rest) child.label = child.label.length)
    {o : Char} {os : Name}
    (ho : child.label.drop (commonPrefixLen (b :: rest) child.label) = o :: os)
    (hn : (b :: rest).drop (commonPrefixLen (b :: rest) child.label) = [])
    (l : Name) (cO : Option α) (cmd : α) :
    insert (Node.mk l cO cs) (b :: rest) cmd =
      some (Node.mk l cO (setChild cs b
        (Node.mk (child.label.take (commonPrefixLen (b :: rest) child.label))
          (some cmd) [(o, withLabel child (o :: os))]))) := by
  rw [insert]
  split
  · simp_all
  · next h' =>
    rw [h] at h'
    cases h'
    rw [if_neg hk]
    simp only [ho, hn]

theorem insert_cons_split_cons {cs : List (Char × Node α)} {b : Char} {child : Node α}
    (h : lookupChild cs b = some child) (rest : Name)
    (hk : ¬ commonPrefixLen (b :: rest) child.label = child.label.length)
    {o : Char} {os : Name}
    (ho : child.label.drop (commonPrefixLen (b :: rest) child.label) = o :: os)
    {nh : Char} {nt : Name}
    (hn : (b :: rest).drop (commonPrefixLen (b :: rest) child.label) = nh :: nt)
    (l : Name) (cO : Option α) (cmd : α) :
    insert (Node.mk l cO cs) (b :: rest) cmd =
      some (Node.mk l cO (setChild cs b
        (Node.mk (child.label.take (commonPrefixLen (b :: rest) child.label)) none
          (setChild [(o, withLabel child (o :: os))] nh
            (Node.mk (nh :: nt) (some cmd) []))))) := by
  rw [insert]
  split
  · simp_all
  · next h' =>
    rw [h] at h'
    cases h'
    rw [if_neg hk]
    simp only [ho, hn]

end Node

/-! ### List-level helper lemmas for `commonPrefixLen` and `hasPre` -/

theorem hasPre_iff {s p : Name} : hasPre s p = true ↔ ∃ t, s = p ++ t := by
  induction p generalizing s with
  | nil => simp [hasPre]
  | cons b bs ih =>
    cases s with
    | nil => simp [hasPre]
    | cons a as =>
      rw [hasPre]
      simp only [Bool.and_eq_true, decide_eq_true_eq, ih, List.cons_append,
        List.cons.injEq]
      constructor
      · rintro ⟨rfl, t, rfl⟩
        exact ⟨t, rfl, rfl⟩
      · rintro ⟨t, rfl, rfl⟩
        exact ⟨rfl, t, rfl⟩

theorem hasPre_append (p t : Name) : hasPre (p ++ t) p = true :=
  hasPre_iff.mpr ⟨t, rfl⟩

theorem commonPrefixLen_le_left (a b : Name) :
    commonPrefixLen a b ≤ a.length := by
  induction a generalizing b with
  | nil => cases b <;> simp [commonPrefixLen]
  | cons x xs ih =>
    cases b with
    | nil => simp [commonPrefixLen]
    | cons y ys =>
      rw [commonPrefixLen]
      split
      · simpa using ih ys
      · simp

theorem commonPrefixLen_le_right (a b : Name) :
    commonPrefixLen a b ≤ b.length := by
  induction a generalizing b with
  | nil => cases b <;> simp [commonPrefixLen]
  | cons x xs ih =>
    cases b with
    | nil => simp [commonPrefixLen]
    | cons y ys =>
      rw [commonPrefixLen]
      split
      · simpa using ih ys
      · simp

theorem take_commonPrefixLen (a b : Name) :
    a.take (commonPrefixLen a b) = b.take (commonPrefixLen a b) := by
  induction a generalizing b with
  | nil => cases b <;> simp [commonPrefixLen]
  | cons x xs ih =>
    cases b with
    | nil => simp [commonPrefixLen]
    | cons y ys =>
      rw [commonPrefixLen]
      split
      · next hxy =>
        subst hxy
        simp [ih ys]
      · simp

theorem append_of_commonPrefixLen_eq_length {a b : Name}
    (h : commonPrefixLen a b = b.length) : a = b ++ a.drop b.length := by
  have htake : a.take b.length = b := by
    have := take_commonPrefixLen a b
    rw [h] at this
    simpa using this
  conv_lhs => rw [← List.take_append_drop b.length a]
  rw [htake]

theorem commonPrefixLen_mismatch {a b : Name} {x y : Char} {xs ys : Name}
    (hx : a.drop (commonPrefixLen a b) = x :: xs)
    (hy : b.drop (commonPrefixLen a b) = y :: ys) : x ≠ y := by
  induction a generalizing b with
  | nil =>
    cases b <;> simp [commonPrefixLen] at hx
  | cons c cs ih =>
    cases b with
    | nil => simp [commonPrefixLen] at hy
    | cons d ds =>
      rw [commonPrefixLen] at hx hy
      by_cases hcd : c = d
      · rw [if_pos hcd] at hx hy
        simp only [List.drop_succ_cons] at hx hy
        exact ih hx hy
      · rw [if_neg hcd] at hx hy
        simp only [List.drop_zero] at hx hy
        cases hx
        cases hy
        exact hcd

theorem commonPrefixLen_pos {b : Char} {rest cl : Name}
    (h : cl.head? = some b) : 0 < commonPrefixLen (b :: rest) cl := by
  cases cl with
  | nil => simp at h
  | cons c cs =>
    simp only [List.head?_cons, Option.some.injEq] at h
    subst h
    rw [commonPrefixLen, if_pos rfl]
    omega

theorem hasPre_append_both (p t q : Name) :
    hasPre (p ++ t) (p ++ q) = hasPre t q := by
  induction p with
  | nil => rfl
  | cons x xs ih =>
    simp only [List.cons_append]
    rw [hasPre]
    simp [ih]

theorem head?_take_pos {k : Nat} (hk : 0 < k) (l : Name) :
    (l.take k).head? = l.head? := by
  cases l with
  | nil => simp
  | cons x xs =>
    cases k with
    | zero => omega
    | succ m => simp

theorem hasPre_refl (p : Name) : hasPre p p = true := by
  have := hasPre_append p []
  simpa using this


theorem hasPre_cons_ne {x y : Char} (h : x ≠ y) (xs ys : Name) :
    hasPre (x :: xs) (y :: ys) = false := by
  rw [hasPre]
  simp [h]

theorem drop_append_length (p t q : Name) :
    (p ++ t).drop (p ++ q).length = t.drop q.length := by
  rw [List.length_append, ← List.drop_drop, List.drop_left]

theorem hasPre_false_of_append {s p q : Name} (hp : ¬ hasPre s p = true) :
    hasPre s (p ++ q) = false := by
  cases hps : hasPre s (p ++ q) with
  | false => rfl
  | true =>
    exfalso
    obtain ⟨w, hw⟩ := hasPre_iff.mp hps
    exact hp (hasPre_iff.mpr ⟨q ++ w, by rw [hw, List.append_assoc]⟩)

namespace Node

variable {α : Type}

/-- What the parent-level step of `search` computes once it has resolved a
child: consume the child's whole edge label, then continue inside it. -/
def pSearch (m : Node α) (s : Name) : Option α :=
  if hasPre s m.label then search m (s.drop m.label.length) else none

theorem search_cons_pSearch {cs : List (Char × Node α)} {b : Char} {child : Node α}
    (h : lookupChild cs b = some child) (l : Name) (cO : Option α) (rest : Name) :
    search (Node.mk l cO cs) (b :: rest) = pSearch child (b :: rest) := by
  rw [search_cons_some h, pSearch]

/-- Search in a freshly inserted leaf: found exactly at the leaf's own label. -/
theorem pSearch_leaf (lbl : Name) (cmd : α) :
    ∀ s, pSearch (Node.mk lbl (some cmd) []) s =
      if s = lbl then some cmd else none := by
  intro s
  rw [pSearch]
  simp only [label_mk]
  by_cases hp : hasPre s lbl = true
  · obtain ⟨t, ht⟩ := hasPre_iff.mp hp
    subst ht
    rw [if_pos hp, List.drop_left]
    cases t with
    | nil => simp
    | cons x xs =>
      rw [search_cons_none (show lookupChild ([] : List (Char × Node α)) x = none from rfl)]
      rw [if_neg (by simp)]
  · rw [if_neg hp, if_neg (fun hc : s = lbl => hp (by rw [hc]; exact hasPre_refl lbl))]

/-- Search behaviour of the split node produced when the new name is exactly
the shared strict segment of an existing edge (`newSuffix == ""` in the
source). -/
theorem pSearch_split_nil {child : Node α} {pre : Name} {o : Char} {os : Name}
    (hcl : child.label = pre ++ o :: os) (cmd : α) :
    ∀ s, pSearch (Node.mk pre (some cmd) [(o, withLabel child (o :: os))]) s =
      if s = pre then some cmd else pSearch child s := by
  intro s
  rw [pSearch]
  simp only [label_mk]
  by_cases hp : hasPre s pre = true
  · obtain ⟨t, ht⟩ := hasPre_iff.mp hp
    subst ht
    rw [if_pos hp, List.drop_left]
    cases t with
    | nil => simp
    | cons x xs =>
      rw [if_neg (by simp)]
      by_cases hxo : o = x
      · subst hxo
        have hlx : lookupChild [(o, withLabel child (o :: os))] o =
            some (withLabel child (o :: os)) := by
          rw [lookupChild, if_pos rfl]
        rw [search_cons_some hlx, label_withLabel, search_withLabel,
          pSearch, hcl, hasPre_append_both, drop_append_length]
      · have hlx : lookupChild [(o, withLabel child (o :: os))] x = none := by
          rw [lookupChild, if_neg hxo, lookupChild]
        rw [search_cons_none hlx, pSearch, hcl, hasPre_append_both,
          hasPre_cons_ne (fun h : x = o => hxo h.symm)]
        rfl
  · rw [if_neg hp,
      if_neg (fun hc : s = pre => hp (by rw [hc]; exact hasPre_refl pre)),
      pSearch, hcl, hasPre_false_of_append hp]
    rfl

/-- Search behaviour of the split node produced when new name and existing
edge diverge strictly inside the edge (`newSuffix != ""` in the source). -/
theorem pSearch_split_cons {child : Node α} {pre : Name} {o : Char} {os : Name}
    {nh : Char} {nt : Name} (hcl : child.label = pre ++ o :: os)
    (hno : ¬ o = nh) (cmd : α) :
    ∀ s, pSearch (Node.mk pre none
        [(o, withLabel child (o :: os)), (nh, Node.mk (nh :: nt) (some cmd) [])]) s =
      if s = pre ++ nh :: nt then some cmd else pSearch child s := by
  intro s
  rw [pSearch]
  simp only [label_mk]
  by_cases hp : hasPre s pre = true
  · obtain ⟨t, ht⟩ := hasPre_iff.mp hp
    subst ht
    rw [if_pos hp, List.drop_left]
    cases t with
    | nil =>
      rw [search_nil, if_neg (by simp), pSearch, hcl, hasPre_append_both]
      have : hasPre ([] : Name) (o :: os) = false := rfl
      rw [this]
      rfl
    | cons x xs =>
      by_cases hxo : o = x
      · subst hxo
        have hlx : lookupChild
            [(o, withLabel child (o :: os)), (nh, Node.mk (nh :: nt) (some cmd) [])] o =
            some (withLabel child (o :: os)) := by
          rw [lookupChild, if_pos rfl]
        rw [search_cons_some hlx, label_withLabel, search_withLabel]
        have hne : (pre ++ o :: xs : Name) ≠ pre ++ nh :: nt := by
          intro hc
          have := List.append_cancel_left hc
          injection this with h1 h2
          exact hno h1
        rw [if_neg hne, pSearch, hcl, hasPre_append_both, drop_append_length]
      · by_cases hxn : nh = x
        · subst hxn
          have hlx : lookupChild
              [(o, withLabel child (o :: os)), (nh, Node.mk (nh :: nt) (some cmd) [])] nh =
              some (Node.mk (nh :: nt) (some cmd) []) := by
            rw [lookupChild, if_neg hno, lookupChild, if_pos rfl]
          rw [search_cons_pSearch hlx, pSearch_leaf]
          by_cases hxs : (nh :: xs : Name) = nh :: nt
          · rw [if_pos hxs, if_pos (by rw [hxs])]
          · rw [if_neg hxs, if_neg (fun hc => hxs (List.append_cancel_left hc)),
              pSearch, hcl, hasPre_append_both,
              hasPre_cons_ne (fun h : nh = o => hno h.symm)]
            rfl
        · have hlx : lookupChild
              [(o, withLabel child (o :: os)), (nh, Node.mk (nh :: nt) (some cmd) [])] x =
              none := by
            rw [lookupChild, if_neg hxo, lookupChild, if_neg hxn, lookupChild]
          rw [search_cons_none hlx]
          have hne : (pre ++ x :: xs : Name) ≠ pre ++ nh :: nt := by
            intro hc
            have := List.append_cancel_left hc
            injection this with h1 h2
            exact hxn h1.symm
          rw [if_neg hne, pSearch, hcl, hasPre_append_both,
            hasPre_cons_ne (fun h : x = o => hxo h.symm)]
          rfl
  · have hne : s ≠ pre ++ nh :: nt := by
      intro hc
      exact hp (hasPre_iff.mpr ⟨nh :: nt, hc⟩)
    rw [if_neg hp, if_neg hne, pSearch, hcl, hasPre_false_of_append hp]
    rfl

/-- Search behaviour of a child rebuilt by a recursive insert, seen from the
parent: only the one new name (edge label plus inserted remainder) changes. -/
theorem pSearch_recurse {child child' : Node α} (hlbl : child'.label = child.label)
    {u : Name} {cmd : α}
    (hchar : ∀ t, child'.search t = if t = u then some cmd else child.search t) :
    ∀ s, pSearch child' s =
      if s = child.label ++ u then some cmd else pSearch child s := by
  intro s
  rw [pSearch, pSearch, hlbl]
  by_cases hp : hasPre s child.label = true
  · obtain ⟨t, ht⟩ := hasPre_iff.mp hp
    subst ht
    rw [if_pos hp, if_pos hp, List.drop_left, hchar]
    by_cases htu : t = u
    · rw [if_pos htu, if_pos (by rw [htu])]
    · rw [if_neg htu, if_neg (fun hc => htu (List.append_cancel_left hc))]
  · rw [if_neg hp, if_neg hp,
      if_neg (fun hc : s = child.label ++ u =>
        hp (by rw [hc]; exact hasPre_append _ _))]

theorem wf_leaf (l : Name) (cO : Option α) : Wf (Node.mk l cO []) := by
  refine Wf.intro _ ?_ ?_ <;> intro b c h <;> simp [lookupChild] at h

theorem wf_update {lbl : Name} {cO : Option α} {cs : List (Char × Node α)}
    {b : Char} {newChild : Node α}
    (hw : Wf (Node.mk lbl cO cs)) (hh : newChild.label.head? = some b)
    (hwn : Wf newChild) : Wf (Node.mk lbl cO (setChild cs b newChild)) := by
  refine Wf.intro _ ?_ ?_ <;> intro b2 c2 h2 <;>
    rw [children_mk, lookupChild_setChild] at h2
  · by_cases hb2 : b = b2
    · rw [if_pos hb2] at h2
      cases h2
      rw [← hb2]
      exact hh
    · rw [if_neg hb2] at h2
      exact hw.head_spec b2 c2 h2
  · by_cases hb2 : b = b2
    · rw [if_pos hb2] at h2
      cases h2
      exact hwn
    · rw [if_neg hb2] at h2
      exact hw.wf_spec b2 c2 h2

theorem wf_split_nil {child : Node α} (hwc : Wf child) (pre : Name) (cmd : α)
    (o : Char) (os : Name) :
    Wf (Node.mk pre (some cmd) [(o, withLabel child (o :: os))]) := by
  refine Wf.intro _ ?_ ?_ <;> intro b3 c3 h3 <;>
    rw [children_mk, lookupChild] at h3
  · split at h3
    · next ho3 =>
      cases h3
      rw [label_withLabel]
      simp [ho3]
    · simp [lookupChild] at h3
  · split at h3
    · cases h3
      exact wf_withLabel hwc _
    · simp [lookupChild] at h3

theorem wf_split_cons {child : Node α} (hwc : Wf child) (pre : Name) (cmd : α)
    (o : Char) (os : Name) (nh : Char) (nt : Name) :
    Wf (Node.mk pre none
      [(o, withLabel child (o :: os)), (nh, Node.mk (nh :: nt) (some cmd) [])]) := by
  refine Wf.intro _ ?_ ?_ <;> intro b3 c3 h3 <;>
    rw [children_mk, lookupChild] at h3
  · split at h3
    · next ho3 =>
      cases h3
      rw [label_withLabel]
      simp [ho3]
    · rw [lookupChild] at h3
      split at h3
      · next hn3 =>
        cases h3
        simp [hn3]
      · simp [lookupChild] at h3
  · split at h3
    · cases h3
      exact wf_withLabel hwc _
    · rw [lookupChild] at h3
      split at h3
      · cases h3
        exact wf_leaf _ _
      · simp [lookupChild] at h3

/-- Updating the child slot for byte `b` only changes `search` results for
names that start with `b`, and there it behaves as the new child's
`pSearch` dictates. -/
theorem search_setChild_characterize {lbl : Name} {cO : Option α}
    {cs : List (Char × Node α)} {b : Char} {rest : Name} {cmd : α}
    {newChild : Node α}
    (hprev : ∀ r2 : Name, pSearch newChild (b :: r2) =
      if (b :: r2 : Name) = b :: rest then some cmd
      else search (Node.mk lbl cO cs) (b :: r2)) :
    ∀ s, search (Node.mk lbl cO (setChild cs b newChild)) s =
      if s = b :: rest then some cmd else search (Node.mk lbl cO cs) s := by
  intro s
  cases s with
  | nil =>
    rw [search_nil, search_nil, if_neg (by simp)]
  | cons b2 r2 =>
    by_cases hb2 : b = b2
    · subst hb2
      have hl2 : lookupChild (setChild cs b newChild) b = some newChild := by
        rw [lookupChild_setChild, if_pos rfl]
      rw [search_cons_pSearch hl2, hprev r2]
    · have hl2 : lookupChild (setChild cs b newChild) b2 = lookupChild cs b2 := by
        rw [lookupChild_setChild, if_neg hb2]
      rw [search_cons_eq_of_lookup_eq hl2 lbl lbl cO cO r2]
      have hne : (b2 :: r2 : Name) ≠ b :: rest := by
        intro hc
        injection hc with h1 h2
        exact hb2 h1.symm
      rw [if_neg hne]

end Node

namespace Node

variable {α : Type}

/-- Main correctness lemma for `insert`: on a well-formed tree in which
`name` is not yet present, insertion succeeds, preserves well-formedness
and the root's edge label, and changes `search` at exactly the new name. -/
theorem insert_ok_aux : ∀ (sz : Nat) (n : Node α), sizeOf n ≤ sz → Wf n →
    ∀ (name : Name) (cmd : α), n.search name = none →
    ∃ n2, n.insert name cmd = some n2 ∧ Wf n2 ∧ n2.label = n.label ∧
      ∀ s, n2.search s = if s = name then some cmd else n.search s := by
  intro sz
  induction sz with
  | zero =>
    intro n hsz
    exfalso
    cases n with
    | mk l c cs =>
      rw [Node.mk.sizeOf_spec] at hsz
      omega
  | succ sz ih =>
    intro n hsz hw name cmd hns
    cases n with
    | mk lbl cO cs =>
      cases name with
      | nil =>
        rw [search_nil] at hns
        subst hns
        refine ⟨Node.mk lbl (some cmd) cs, insert_nil_none lbl cs cmd, ?_, rfl, ?_⟩
        · exact Wf.intro _ (fun b c h => hw.head_spec b c h)
            (fun b c h => hw.wf_spec b c h)
        · intro s
          cases s with
          | nil => rw [search_nil, search_nil, if_pos rfl]
          | cons b2 r2 =>
            rw [if_neg (by simp)]
            exact search_cons_eq_of_lookup_eq rfl lbl lbl none (some cmd) r2
      | cons b rest =>
        cases hlook : lookupChild cs b with
        | none =>
          refine ⟨_, insert_cons_nochild hlook lbl cO rest cmd, ?_, rfl, ?_⟩
          · exact wf_update hw (by simp) (wf_leaf _ _)
          · exact search_setChild_characterize (fun r2 => by
              rw [pSearch_leaf, search_cons_none hlook])
        | some child =>
          have hhead := hw.head_spec b child hlook
          have hwchild := hw.wf_spec b child hlook
          have hszchild : sizeOf child ≤ sz := by
            have h1 := lookupChild_sizeOf hlook
            rw [Node.mk.sizeOf_spec] at hsz
            omega
          by_cases hfull : commonPrefixLen (b :: rest) child.label = child.label.length
          · have hu : (b :: rest : Name) =
                child.label ++ (b :: rest).drop child.label.length :=
              append_of_commonPrefixLen_eq_length hfull
            have hp : hasPre (b :: rest) child.label = true :=
              hasPre_iff.mpr ⟨_, hu⟩
            have hns2 : child.search ((b :: rest).drop child.label.length) = none := by
              rw [search_cons_some hlook, if_pos hp] at hns
              exact hns
            obtain ⟨child', hins, hwf', hlbl', hchar⟩ :=
              ih child hszchild hwchild _ cmd hns2
            refine ⟨Node.mk lbl cO (setChild cs b child'), ?_, ?_, rfl, ?_⟩
            · rw [insert_cons_recurse hlook rest hfull, hfull, hins]
            · exact wf_update hw (by rw [hlbl']; exact hhead) hwf'
            · refine search_setChild_characterize (fun r2 => ?_)
              rw [pSearch_recurse hlbl' hchar (b :: r2), ← hu,
                search_cons_pSearch hlook]
          · have hkpos : 0 < commonPrefixLen (b :: rest) child.label :=
              commonPrefixLen_pos hhead
            have hklt : commonPrefixLen (b :: rest) child.label < child.label.length :=
              lt_of_le_of_ne (commonPrefixLen_le_right _ _) hfull
            cases ho : child.label.drop (commonPrefixLen (b :: rest) child.label) with
            | nil =>
              exfalso
              have hlen := congrArg List.length ho
              rw [List.length_drop] at hlen
              simp only [List.length_nil] at hlen
              omega
            | cons o os =>
              have hcl : child.label =
                  child.label.take (commonPrefixLen (b :: rest) child.label) ++ o :: os := by
                conv_lhs =>
                  rw [← List.take_append_drop
                    (commonPrefixLen (b :: rest) child.label) child.label]
                rw [ho]
              have hpretake :
                  (child.label.take (commonPrefixLen (b :: rest) child.label)).head? =
                    some b := by
                rw [head?_take_pos hkpos, hhead]
              have hktake : (b :: rest : Name).take (commonPrefixLen (b :: rest) child.label) =
                  child.label.take (commonPrefixLen (b :: rest) child.label) :=
                take_commonPrefixLen _ _
              cases hnsplit : (b :: rest : Name).drop (commonPrefixLen (b :: rest) child.label) with
              | nil =>
                have hname : (b :: rest : Name) =
                    child.label.take (commonPrefixLen (b :: rest) child.label) := by
                  conv_lhs =>
                    rw [← List.take_append_drop
                      (commonPrefixLen (b :: rest) child.label) (b :: rest)]
                  rw [hnsplit, hktake, List.append_nil]
                refine ⟨_, insert_cons_split_nil hlook rest hfull ho hnsplit lbl cO cmd,
                  ?_, rfl, ?_⟩
                · exact wf_update hw hpretake (wf_split_nil hwchild _ _ _ _)
                · refine search_setChild_characterize (fun r2 => ?_)
                  rw [pSearch_split_nil hcl cmd (b :: r2), ← hname,
                    search_cons_pSearch hlook]
              | cons nh nt =>
                have hno : ¬ o = nh := by
                  intro hc
                  exact commonPrefixLen_mismatch hnsplit ho hc.symm
                have hname : (b :: rest : Name) =
                    child.label.take (commonPrefixLen (b :: rest) child.label) ++ nh :: nt := by
                  conv_lhs =>
                    rw [← List.take_append_drop
                      (commonPrefixLen (b :: rest) child.label) (b :: rest)]
                  rw [hnsplit, hktake]
                have hsc : setChild [(o, withLabel child (o :: os))] nh
                    (Node.mk (nh :: nt) (some cmd) []) =
                    [(o, withLabel child (o :: os)),
                      (nh, Node.mk (nh :: nt) (some cmd) [])] := by
                  rw [setChild, if_neg hno, setChild]
                refine ⟨Node.mk lbl cO (setChild cs b
                    (Node.mk (child.label.take (commonPrefixLen (b :: rest) child.label)) none
                      [(o, withLabel child (o :: os)),
                        (nh, Node.mk (nh :: nt) (some cmd) [])])), ?_, ?_, rfl, ?_⟩
                · rw [insert_cons_split_cons hlook rest hfull ho hnsplit lbl cO cmd, hsc]
                · exact wf_update hw hpretake (wf_split_cons hwchild _ _ _ _ _ _)
                · refine search_setChild_characterize (fun r2 => ?_)
                  rw [pSearch_split_cons hcl hno cmd (b :: r2), ← hname,
                    search_cons_pSearch hlook]

/-- Packaged form of `insert_ok_aux`. -/
theorem insert_ok {n : Node α} (hw : Wf n) {name : Name} {cmd : α}
    (hns : n.search name = none) :
    ∃ n2, n.insert name cmd = some n2 ∧ Wf n2 ∧ n2.label = n.label ∧
      ∀ s, n2.search s = if s = name then some cmd else n.search s :=
  insert_ok_aux (sizeOf n) n le_rfl hw name cmd hns

end Node

/-- The root node a fresh `Router` starts from (`New` in `router.go`:
`&node{children: make(map[byte]*node)}`). -/
def emptyRoot {α : Type} : Node α := .mk [] none []

theorem wf_emptyRoot {α : Type} : Node.Wf (emptyRoot : Node α) :=
  Node.wf_leaf [] none

theorem search_emptyRoot {α : Type} (s : Name) :
    (emptyRoot : Node α).search s = none := by
  cases s with
  | nil => rw [emptyRoot, Node.search_nil]
  | cons b r =>
    rw [emptyRoot]
    exact Node.search_cons_none
      (show Node.lookupChild ([] : List (Char × Node α)) b = none from rfl) [] none r

/-- A whole registration phase: insert the given (name, command) pairs in
order, failing if any single insert fails (Go would panic). -/
def insertAll {α : Type} : Node α → List (Name × α) → Option (Node α)
  | n, [] => some n
  | n, (name, cmd) :: rest =>
    match n.insert name cmd with
    | none => none
    | some n2 => insertAll n2 rest

theorem insertAll_char {α : Type} (pairs : List (Name × α)) : ∀ {n : Node α},
    Node.Wf n →
    (∀ p ∈ pairs, n.search p.1 = none) →
    (pairs.map Prod.fst).Nodup →
    ∃ t, insertAll n pairs = some t ∧ Node.Wf t ∧
      ∀ s, t.search s =
        match pairs.find? (fun p => decide (p.1 = s)) with
        | some p => some p.2
        | none => n.search s := by
  induction pairs with
  | nil =>
    intro n hw _ _
    exact ⟨n, rfl, hw, fun s => rfl⟩
  | cons p ps ih =>
    intro n hw hfresh hnodup
    obtain ⟨n2, hins, hwf2, hlbl2, hchar⟩ :=
      @Node.insert_ok α n hw p.1 p.2 (hfresh p (by simp))
    have hnotin : p.1 ∉ ps.map Prod.fst := by
      rw [List.map_cons, List.nodup_cons] at hnodup
      exact hnodup.1
    have hfresh2 : ∀ q ∈ ps, n2.search q.1 = none := by
      intro q hq
      rw [hchar]
      have hne : q.1 ≠ p.1 := by
        intro hc
        exact hnotin (hc ▸ List.mem_map_of_mem Prod.fst hq)
      rw [if_neg hne]
      exact hfresh q (List.mem_cons_of_mem p hq)
    have hnodup2 : (ps.map Prod.fst).Nodup := by
      rw [List.map_cons, List.nodup_cons] at hnodup
      exact hnodup.2
    obtain ⟨t, hall, hwt, hchart⟩ := ih hwf2 hfresh2 hnodup2
    refine ⟨t, ?_, hwt, ?_⟩
    · rw [insertAll, hins]
      exact hall
    · intro s
      rw [hchart s]
      by_cases hps : p.1 = s
      · rw [List.find?_cons_of_pos _ (by simp [hps])]
        have hfind : ps.find? (fun q => decide (q.1 = s)) = none := by
          rw [List.find?_eq_none]
          intro q hq
          simp only [decide_eq_true_eq]
          intro hc
          exact hnotin (by rw [hps, ← hc]; exact List.mem_map_of_mem Prod.fst hq)
        rw [hfind, hchar, if_pos hps.symm]
      · rw [List.find?_cons_of_neg _ (by simp [hps])]
        cases hfind : ps.find? (fun q => decide (q.1 = s)) with
        | some q => rfl
        | none =>
          rw [hchar, if_neg (fun hc => hps hc.symm)]

/-- C1: for every sequence of insertions of distinct non-empty names into
the command index starting from the empty root, `search` returns exactly
the command inserted under each inserted name, and reports not-found for
every strict prefix of an inserted name that was not itself inserted. -/
theorem C1_insert_search_roundtrip {α : Type} (pairs : List (Name × α))
    (hne : ∀ p ∈ pairs, p.1 ≠ [])
    (hnodup : (pairs.map Prod.fst).Nodup) :
    ∃ t, insertAll (emptyRoot : Node α) pairs = some t ∧
      (∀ p ∈ pairs, t.search p.1 = some p.2) ∧
      (∀ s : Name, s ∉ pairs.map Prod.fst →
        (∃ p ∈ pairs, s <+: p.1 ∧ s ≠ p.1) → t.search s = none) := by
  obtain ⟨t, hall, hwt, hchar⟩ :=
    insertAll_char pairs wf_emptyRoot (fun p _ => search_emptyRoot p.1) hnodup
  refine ⟨t, hall, ?_, ?_⟩
  · intro p hp
    rw [hchar p.1]
    cases hfind : pairs.find? (fun q => decide (q.1 = p.1)) with
    | none =>
      exfalso
      rw [List.find?_eq_none] at hfind
      have := hfind p hp
      simp at this
    | some q =>
      have hmem := List.mem_of_find?_eq_some hfind
      have hq1 : q.1 = p.1 := by
        have := List.find?_some hfind
        simpa using this
      -- distinct names force q = p: both are entries whose name is p.1
      have hqp : q = p := List.inj_on_of_nodup_map hnodup hmem hp hq1
      rw [hqp]
  · intro s hs _
    rw [hchar s]
    cases hfind : pairs.find? (fun q => decide (q.1 = s)) with
    | none => exact search_emptyRoot s
    | some q =>
      exfalso
      have hmem := List.mem_of_find?_eq_some hfind
      have hq1 : q.1 = s := by
        have := List.find?_some hfind
        simpa using this
      exact hs (hq1 ▸ List.mem_map_of_mem Prod.fst hmem)

/-! ### Levenshtein distance (`levenshtein` in `errors.go`) -/

/-- Textbook recursive characterization of the Levenshtein edit distance
(the specification's "minimum number of single-character insertions,
deletions, or substitutions"), used as the specification the single-row
dynamic program is checked against. -/
def edSpec : Name → Name → Nat
  | [], ys => ys.length
  | x :: xs, [] => (x :: xs).length
  | x :: xs, y :: ys =>
    min (edSpec xs ys + (if x = y then 0 else 1))
      (min (edSpec (x :: xs) ys + 1) (edSpec xs (y :: ys) + 1))
termination_by a b => a.length + b.length
decreasing_by all_goals (simp only [List.length_cons]; omega)

@[simp] theorem edSpec_nil_left (ys : Name) : edSpec [] ys = ys.length := by
  rw [edSpec]

@[simp] theorem edSpec_nil_right (xs : Name) : edSpec xs [] = xs.length := by
  cases xs with
  | nil => rw [edSpec]
  | cons x xs => rw [edSpec]

theorem edSpec_cons_cons (x y : Char) (xs ys : Name) :
    edSpec (x :: xs) (y :: ys) =
      min (edSpec xs ys + (if x = y then 0 else 1))
        (min (edSpec (x :: xs) ys + 1) (edSpec xs (y :: ys) + 1)) := by
  rw [edSpec]

/-- Inner loop of the Go `levenshtein` function (`for j := 1; ...`): given
the character `ai` of the outer loop, the remaining characters of `b`, the
suffix of the previous row starting at `prev[j-1]`, and the value
`curr[j-1]`, produce the values `curr[j], curr[j+1], ...`.  The source
indexes `prev[j]`/`prev[j-1]` of a row that always has one more entry than
the remaining characters; the unreachable too-short cases return `[]`. -/
def levInner (ai : Char) : List Char → List Nat → Nat → List Nat
  | [], _, _ => []
  | _ :: _, [], _ => []
  | bj :: brest, pj1 :: prest, cj1 =>
    match prest with
    | [] => []
    | pj :: _ =>
      let cost := if ai = bj then 0 else 1
      let cj := min (cj1 + 1) (min (pj + 1) (pj1 + cost))
      cj :: levInner ai brest prest cj

/-- Outer loop of the Go `levenshtein` function (`for i := 1; ...`): one
row per remaining character of `a`, threading the previous row;
`curr[0] = i`. -/
def levRows (b : List Char) : List Char → List Nat → Nat → List Nat
  | [], prev, _ => prev
  | ai :: arest, prev, i => levRows b arest (i :: levInner ai b prev i) (i + 1)

/-- Body of Go `levenshtein` after the initial swap: short-circuit an empty
`b`, then run the single-row dynamic program and read `prev[len(b)]`. -/
def levenshteinCore (a b : Name) : Nat :=
  if b.length = 0 then a.length
  else (levRows b a (List.range (b.length + 1)) 1).getD b.length 0

/-- Embeds `levenshtein` from `errors.go`: `if len(a) < len(b) { a, b = b, a }`,
then the single-row dynamic program. -/
def levenshtein (a b : Name) : Nat :=
  if a.length < b.length then levenshteinCore b a else levenshteinCore a b

/-- Row abstraction: the previous-row suffix seen by the inner loop when
`rc` holds the reversed consumed part of `b` and `brem` the rest. -/
def rowFrom (u : Name) (rc : Name) : List Char → List Nat
  | [] => [edSpec u rc]
  | bj :: brest => edSpec u rc :: rowFrom u (bj :: rc) brest

theorem rowFrom_cons_shape (u rc : Name) (brem : List Char) :
    ∃ tl, rowFrom u rc brem = edSpec u rc :: tl := by
  cases brem <;> exact ⟨_, rfl⟩

theorem levInner_spec (ai : Char) :
    ∀ (brem : List Char) (rc u : Name),
      edSpec (ai :: u) rc :: levInner ai brem (rowFrom u rc brem) (edSpec (ai :: u) rc) =
        rowFrom (ai :: u) rc brem := by
  intro brem
  induction brem with
  | nil =>
    intro rc u
    simp [rowFrom, levInner]
  | cons bj brest ih =>
    intro rc u
    obtain ⟨tl, htl⟩ := rowFrom_cons_shape u (bj :: rc) brest
    rw [rowFrom, rowFrom, htl, levInner]
    have hcj : min (edSpec (ai :: u) rc + 1)
        (min (edSpec u (bj :: rc) + 1) (edSpec u rc + (if ai = bj then 0 else 1))) =
        edSpec (ai :: u) (bj :: rc) := by
      rw [edSpec_cons_cons]
      generalize (if ai = bj then 0 else 1) = c
      omega
    simp only [hcj, ← htl]
    rw [ih (bj :: rc) u]

theorem levRows_spec (b : List Char) :
    ∀ (arem : List Char) (u : Name),
      levRows b arem (rowFrom u [] b) (u.length + 1) =
        rowFrom (arem.reverse ++ u) [] b := by
  intro arem
  induction arem with
  | nil =>
    intro u
    rw [levRows]
    simp
  | cons ai arest ih =>
    intro u
    have hrow : (u.length + 1) :: levInner ai b (rowFrom u [] b) (u.length + 1) =
        rowFrom (ai :: u) [] b := by
      have h := levInner_spec ai b [] u
      simpa using h
    rw [levRows, hrow]
    have h2 := ih (ai :: u)
    simp only [List.length_cons] at h2
    rw [h2]
    simp

theorem rowFrom_nil_seq : ∀ (brem : List Char) (rc : Name),
    rowFrom [] rc brem = (List.range (brem.length + 1)).map (fun j => rc.length + j) := by
  intro brem
  induction brem with
  | nil =>
    intro rc
    simp [rowFrom, List.range_succ]
  | cons bj brest ih =>
    intro rc
    rw [rowFrom, ih (bj :: rc)]
    conv_rhs => rw [show (bj :: brest).length + 1 = (brest.length + 1) + 1 from by simp,
      List.range_succ_eq_map, List.map_cons, List.map_map]
    have hfun : ((fun j => rc.length + j) ∘ Nat.succ) =
        (fun j => (bj :: rc).length + j) := by
      funext j
      simp [Function.comp]
      omega
    rw [hfun]
    simp [edSpec_nil_left]

theorem rowFrom_getD (u : Name) : ∀ (brem : List Char) (rc : Name),
    (rowFrom u rc brem).getD brem.length 0 = edSpec u (brem.reverse ++ rc) := by
  intro brem
  induction brem with
  | nil =>
    intro rc
    simp [rowFrom]
  | cons bj brest ih =>
    intro rc
    rw [rowFrom]
    simp only [List.length_cons, List.getD_cons_succ]
    rw [ih (bj :: rc)]
    simp

/-- The whole dynamic program computes the edit distance of the reversed
inputs (rows walk prefixes; `edSpec` peels from the front). -/
theorem levRows_getD (a b : List Char) :
    (levRows b a (List.range (b.length + 1)) 1).getD b.length 0 =
      edSpec a.reverse b.reverse := by
  have h0 : List.range (b.length + 1) = rowFrom [] [] b := by
    rw [rowFrom_nil_seq]
    simp
  rw [h0]
  have h1 := levRows_spec b a []
  simp only [List.length_nil, List.append_nil] at h1
  rw [show (1 : Nat) = 0 + 1 from rfl, h1, rowFrom_getD]
  simp

/-- Two-ended recurrence: `edSpec` satisfies the same minimum recurrence at
the last characters as at the first ones.  This is what lets the row-based
dynamic program (which extends prefixes on the right) compute the
front-recursive specification. -/
theorem edSpec_append_singleton : ∀ (u v : Name) (x y : Char),
    edSpec (u ++ [x]) (v ++ [y]) =
      min (edSpec u v + (if x = y then 0 else 1))
        (min (edSpec (u ++ [x]) v + 1) (edSpec u (v ++ [y]) + 1)) := by
  intro u
  induction u with
  | nil =>
    intro v
    induction v with
    | nil =>
      intro x y
      simp only [List.nil_append, edSpec_cons_cons]
    | cons w ws ihv =>
      intro x y
      simp only [List.nil_append] at ihv ⊢
      rw [show (w :: ws : Name) ++ [y] = w :: (ws ++ [y]) from rfl,
        edSpec_cons_cons, edSpec_cons_cons, ihv x y]
      simp only [edSpec_nil_left, List.length_append, List.length_cons,
        List.length_nil]
      generalize (if x = y then 0 else 1) = cxy
      generalize (if x = w then 0 else 1) = cxw
      omega
  | cons a as ihu =>
    intro v
    induction v with
    | nil =>
      intro x y
      simp only [List.nil_append] at *
      rw [show (a :: as : Name) ++ [x] = a :: (as ++ [x]) from rfl,
        edSpec_cons_cons, edSpec_cons_cons]
      have h3 := ihu [] x y
      simp only [List.nil_append] at h3
      rw [h3]
      simp only [edSpec_nil_right, List.length_append, List.length_cons,
        List.length_nil]
      generalize (if x = y then 0 else 1) = cxy
      generalize (if a = y then 0 else 1) = cay
      omega
    | cons w ws ihv =>
      intro x y
      simp only [List.cons_append] at ihv ⊢
      rw [edSpec_cons_cons, edSpec_cons_cons]
      have h1 := ihu ws x y
      have h2 := ihu (w :: ws) x y
      simp only [List.cons_append] at h2
      rw [h1, h2, ihv x y,
        edSpec_cons_cons a w (as ++ [x]) ws,
        edSpec_cons_cons a w as (ws ++ [y])]
      generalize (if x = y then 0 else 1) = cxy
      generalize (if a = w then 0 else 1) = caw
      apply Nat.le_antisymm <;> simp only [le_min_iff, min_le_iff] <;> omega

/-- The edit distance is symmetric. -/
theorem edSpec_symm : ∀ (u v : Name), edSpec u v = edSpec v u := by
  intro u
  induction u with
  | nil =>
    intro v
    simp
  | cons a as ihu =>
    intro v
    induction v with
    | nil => simp
    | cons w ws ihv =>
      rw [edSpec_cons_cons, edSpec_cons_cons, ihu ws, ihu (w :: ws), ihv]
      have hc : (if a = w then 0 else 1) = (if w = a then 0 else 1) := by
        by_cases h : a = w
        · rw [if_pos h, if_pos h.symm]
        · rw [if_neg h, if_neg (fun hc => h hc.symm)]
      rw [hc]
      omega

/-- The edit distance is invariant under reversing both inputs. -/
theorem edSpec_reverse : ∀ (u v : Name),
    edSpec u.reverse v.reverse = edSpec u v := by
  intro u
  induction u with
  | nil =>
    intro v
    simp
  | cons a as ihu =>
    intro v
    induction v with
    | nil => simp
    | cons w ws ihv =>
      conv_lhs => rw [List.reverse_cons, List.reverse_cons]
      rw [edSpec_append_singleton,
        show List.reverse as ++ [a] = List.reverse (a :: as) from
          (List.reverse_cons a as).symm,
        show List.reverse ws ++ [w] = List.reverse (w :: ws) from
          (List.reverse_cons w ws).symm,
        ihu ws, ihv, ihu (w :: ws), edSpec_cons_cons]

/-- The Go single-row implementation computes exactly the textbook
Levenshtein distance. -/
theorem levenshtein_eq_edSpec (a b : Name) : levenshtein a b = edSpec a b := by
  have hcore : ∀ (u v : Name), levenshteinCore u v = edSpec u v := by
    intro u v
    rw [levenshteinCore]
    by_cases hv : v.length = 0
    · rw [if_pos hv]
      have : v = [] := List.length_eq_zero.mp hv
      subst this
      simp
    · rw [if_neg hv, levRows_getD, edSpec_reverse]
  rw [levenshtein]
  by_cases hab : a.length < b.length
  · rw [if_pos hab, hcore, edSpec_symm]
  · rw [if_neg hab, hcore]

/-! ### Error taxonomy (`errors.go`), `errors.Join`, `errors.As`/`errors.Is` -/

/-- The error values the engine produces and consumes.  `noCommand`,
`notFound`, `flagParse` and `commandError` embed the four kinds from
`errors.go`; `joined` embeds the aggregate produced by `errors.Join`;
`ctxCanceled`/`deadlineExceeded` stand for `context.Canceled` /
`context.DeadlineExceeded`; `base` stands for any other opaque error value. -/
inductive Err where
  | noCommand
  | notFound (name : Name) (suggestions : List Name)
  | flagParse (command : Name) (cause : Err)
  | commandError (command : Name) (cause : Err)
  | joined (errs : List Err)
  | ctxCanceled
  | deadlineExceeded
  | base (tag : Nat)

mutual
/-- `errors.As(err, &cmdErr)` for `*CommandError`: the target kind matches
immediately, otherwise the chain is walked through `Unwrap() error`
(`FlagParseError`, `CommandError`) and `Unwrap() []error` (`errors.Join`);
the remaining kinds have no `Unwrap`. -/
def Err.hasCommandError : Err → Bool
  | .commandError _ _ => true
  | .flagParse _ cause => cause.hasCommandError
  | .joined es => errListHasCommandError es
  | _ => false

def errListHasCommandError : List Err → Bool
  | [] => false
  | e :: rest => e.hasCommandError || errListHasCommandError rest
end

/-- `errors.Is(E, target)`-style reachability: `target` is `E` itself or
reachable from `E` through the `Unwrap` chain (including `errors.Join`
aggregates). -/
inductive InChain (t : Err) : Err → Prop where
  | refl : InChain t t
  | flagParse (name : Name) (cause : Err) :
      InChain t cause → InChain t (.flagParse name cause)
  | commandError (name : Name) (cause : Err) :
      InChain t cause → InChain t (.commandError name cause)
  | joined (es : List Err) (e : Err) :
      e ∈ es → InChain t e → InChain t (.joined es)

/-- `errors.Join(errs...)` as used in `ConcurrentRunner.Execute`: the list
passed in holds only non-nil errors; the result is nil for an empty list
and an aggregate wrapping the list otherwise (a single error is still
wrapped). -/
def errorsJoin : List Err → Option Err
  | [] => none
  | es => some (.joined es)

/-! ### Command, execution context and Router (`router.go`, `context.go`) -/

/-- A flag specification (`*flag.FlagSet` as consumed by the router):
parsing a token list either fails or yields the leftover positional
arguments (`fs.Args()`). -/
structure FlagSpec where
  parse : List Name → Except Err (List Name)

/-- The execution `Context` built per invocation (`context.go`): positional
arguments, the parsed flag set if any, and stream/logger references
(identity modelled as numbers; `none` = nil). -/
structure Context where
  args : List Name
  flags : Option FlagSpec
  stdin : Option Nat
  stdout : Option Nat
  stderr : Option Nat
  logger : Option Nat

/-- The `Command` interface plus the optional `AliasProvider` extension:
`aliases = some l` means the command implements `AliasProvider` with
`Aliases() = l`.  `run` takes the cancellation context (modelled as
`none` = alive, `some e` = done with cause `e`) and the execution
context. -/
structure Command where
  name : Name
  flags : Option FlagSpec
  run : Option Err → Context → Option Err
  aliases : Option (List Name)

mutual
/-- Embeds `node.collectCommands` from `router_tree.go`: the node's own
command (when terminal) followed by all commands of all children.  Go
iterates the child map in unspecified order; the association-list order
stands in for it. -/
def Node.collectCommands {α : Type} : Node α → List α
  | .mk _ cO cs =>
    (match cO with
      | some c => [c]
      | none => []) ++ collectChildren cs

def collectChildren {α : Type} : List (Char × Node α) → List α
  | [] => []
  | (_, c) :: rest => c.collectCommands ++ collectChildren rest
end

/-! ### Suggestion matcher (`node.findSimilar` in `router_tree.go`) -/

/-- Go lexicographic byte-string comparison, in its non-strict form
(`x <= y`, i.e. `!(y < x)`): the order `sort.Slice`'s tie-break
`m[i].cmd.Name() < m[j].cmd.Name()` sorts by. -/
def nameLe : Name → Name → Bool
  | [], _ => true
  | _ :: _, [] => false
  | a :: as, b :: bs => if a = b then nameLe as bs else decide (a < b)

/-- The total preorder `sort.Slice` in `findSimilar` sorts by: ascending
Levenshtein distance to the query, ties broken lexicographically by
command name. -/
def suggestLe (q : Name) (x y : Command) : Bool :=
  if levenshtein q x.name = levenshtein q y.name then nameLe x.name y.name
  else decide (levenshtein q x.name < levenshtein q y.name)

/-- Embeds `node.findSimilar` from `router_tree.go`: threshold
`max(2, len(name)/3)`, filter all registered commands by distance, sort by
(distance, name), truncate to `maxResults`.  `sort.Slice` (an unstable
sort) is embedded as a deterministic sort; all properties proven below are
shared by every sort agreeing with the comparator. -/
def findSimilar (n : Node Command) (name : Name) (maxResults : Int) : List Command :=
  if name = [] ∨ maxResults ≤ 0 then []
  else
    let threshold := if name.length / 3 < 2 then 2 else name.length / 3
    let all := n.collectCommands
    -- `matched` is the source's `matches` (a Lean keyword)
    let matched := all.filter (fun c => levenshtein name c.name ≤ threshold)
    let sorted := List.insertionSort (fun x y => suggestLe name x y = true) matched
    let truncated := if (sorted.length : Int) > maxResults
      then sorted.take maxResults.toNat else sorted
    match truncated with
    | [] => []
    | result => result

/-! ### Router and dispatch (`router.go`) -/

/-- The `Router` fields dispatch and registration read: the radix tree
root, configured stream/logger references, the alias table
(primary name → alias names, an association list for the Go map), and the
lifecycle settings. -/
structure Router where
  root : Node Command
  stdout : Option Nat
  stderr : Option Nat
  logger : Option Nat
  aliases : List (Name × List Name)
  handleSignal : Bool

/-- `Router.suggestNames`: names of `findSimilar(name, 3)`. -/
def Router.suggestNames (r : Router) (name : Name) : List Name :=
  match findSimilar r.root name 3 with
  | [] => []
  | similar => similar.map (fun c => c.name)

/-- Lines 1677–1683 of the dispatch routine: a runner error already
carrying the command-execution-failure kind anywhere in its chain passes
through unchanged; any other error is wrapped once, tagged with the
dispatched command's name. -/
def wrapRunnerError (cmdName : Name) : Option Err → Option Err
  | none => none
  | some e => if e.hasCommandError then some e else some (.commandError cmdName e)

/-- Embeds `Router.runContextWith`: the dispatch algorithm.  The runner is
abstracted as a function of the cancellation context, the matched command
list and the freshly built execution context.  Logging is observable only
through the logger and is omitted; the signal/timeout wrappers transform
only the Go context's cancellation behaviour and are modelled separately
(see `SigState`). -/
def Router.runContextWith (r : Router)
    (runner : Option Err → List Command → Context → Option Err)
    (ctx : Option Err) (args : List Name)
    (stdout stderr : Option Nat) : Option Err :=
  match args with
  | [] => some .noCommand
  | cmdName :: cmdArgs =>
    match r.root.search cmdName with
    | none => some (.notFound cmdName (r.suggestNames cmdName))
    | some cmd =>
      match cmd.flags with
      | some fs =>
        match fs.parse cmdArgs with
        | .error e => some (.flagParse cmdName e)
        | .ok rest =>
          wrapRunnerError cmdName (runner ctx [cmd]
            { args := rest, flags := some fs, stdin := none,
              stdout := stdout, stderr := stderr, logger := r.logger })
      | none =>
        wrapRunnerError cmdName (runner ctx [cmd]
          { args := cmdArgs, flags := none, stdin := none,
            stdout := stdout, stderr := stderr, logger := r.logger })

/-- `Router.RunContext`: dispatch with the router's own streams. -/
def Router.runContext (r : Router)
    (runner : Option Err → List Command → Context → Option Err)
    (ctx : Option Err) (args : List Name) : Option Err :=
  r.runContextWith runner ctx args r.stdout r.stderr

/-! ### Ordering facts for the suggestion comparator -/

theorem nameLe_total (a b : Name) : nameLe a b = true ∨ nameLe b a = true := by
  induction a generalizing b with
  | nil => left; rfl
  | cons x xs ih =>
    cases b with
    | nil => right; rfl
    | cons y ys =>
      by_cases hxy : x = y
      · subst hxy
        rw [nameLe, if_pos rfl, nameLe, if_pos rfl]
        exact ih ys
      · rcases lt_or_gt_of_ne hxy with h | h
        · left
          rw [nameLe, if_neg hxy]
          simpa using h
        · right
          rw [nameLe, if_neg (fun hc => hxy hc.symm)]
          simpa using h

theorem nameLe_trans {a b c : Name} (h1 : nameLe a b = true)
    (h2 : nameLe b c = true) : nameLe a c = true := by
  induction a generalizing b c with
  | nil => rfl
  | cons x xs ih =>
    cases b with
    | nil => simp [nameLe] at h1
    | cons y ys =>
      cases c with
      | nil => simp [nameLe] at h2
      | cons z zs =>
        rw [nameLe] at h1 h2 ⊢
        by_cases hxy : x = y
        · subst hxy
          rw [if_pos rfl] at h1
          by_cases hyz : x = z
          · subst hyz
            rw [if_pos rfl] at h2 ⊢
            exact ih h1 h2
          · rw [if_neg hyz] at h2 ⊢
            exact h2
        · rw [if_neg hxy] at h1
          simp only [decide_eq_true_eq] at h1
          by_cases hyz : y = z
          · subst hyz
            rw [if_neg hxy]
            simpa using h1
          · rw [if_neg hyz] at h2
            simp only [decide_eq_true_eq] at h2
            have hxz : x < z := lt_trans h1 h2
            rw [if_neg (fun hc : x = z => absurd (hc ▸ h1) (by simp [hc, asymm h2]))]
            simpa using hxz

theorem suggestLe_total (q : Name) (x y : Command) :
    suggestLe q x y = true ∨ suggestLe q y x = true := by
  rw [suggestLe, suggestLe]
  by_cases hd : levenshtein q x.name = levenshtein q y.name
  · rw [if_pos hd, if_pos hd.symm]
    exact nameLe_total x.name y.name
  · rw [if_neg hd, if_neg (fun hc => hd hc.symm)]
    rcases lt_or_gt_of_ne hd with h | h
    · left; simpa using h
    · right; simpa using h

theorem suggestLe_trans (q : Name) (x y z : Command)
    (h1 : suggestLe q x y = true) (h2 : suggestLe q y z = true) :
    suggestLe q x z = true := by
  rw [suggestLe] at h1 h2 ⊢
  by_cases hxy : levenshtein q x.name = levenshtein q y.name
  · rw [if_pos hxy] at h1
    by_cases hyz : levenshtein q y.name = levenshtein q z.name
    · rw [if_pos hyz] at h2
      rw [if_pos (hxy.trans hyz)]
      exact nameLe_trans h1 h2
    · rw [if_neg hyz] at h2
      simp only [decide_eq_true_eq] at h2
      rw [if_neg (by omega)]
      simp only [decide_eq_true_eq]
      omega
  · rw [if_neg hxy] at h1
    simp only [decide_eq_true_eq] at h1
    by_cases hyz : levenshtein q y.name = levenshtein q z.name
    · rw [if_neg (by omega)]
      simp only [decide_eq_true_eq]
      omega
    · rw [if_neg hyz] at h2
      simp only [decide_eq_true_eq] at h2
      rw [if_neg (by omega)]
      simp only [decide_eq_true_eq]
      omega

theorem threshold_eq_max (n : Nat) :
    (if n / 3 < 2 then 2 else n / 3) = max 2 (n / 3) := by
  by_cases h : n / 3 < 2
  · rw [if_pos h]; omega
  · rw [if_neg h]; omega

theorem filter_lev_eq_filter_edSpec (l : List Command) (name : Name) :
    l.filter (fun c => levenshtein name c.name ≤
      (if name.length / 3 < 2 then 2 else name.length / 3)) =
    l.filter (fun c => edSpec name c.name ≤ max 2 (name.length / 3)) := by
  apply List.filter_congr
  intro c _
  rw [decide_eq_decide, levenshtein_eq_edSpec, threshold_eq_max]

theorem findSimilar_eq (n : Node Command) (name : Name) (maxResults : Int)
    (h : ¬ (name = [] ∨ maxResults ≤ 0)) :
    findSimilar n name maxResults =
      (List.insertionSort (fun x y => suggestLe name x y = true)
        (n.collectCommands.filter (fun c => levenshtein name c.name ≤
          (if name.length / 3 < 2 then 2 else name.length / 3)))).take
        maxResults.toNat := by
  rw [findSimilar, if_neg h]
  simp only []
  set sorted := List.insertionSort (fun x y => suggestLe name x y = true)
    (n.collectCommands.filter (fun c => levenshtein name c.name ≤
      (if name.length / 3 < 2 then 2 else name.length / 3))) with hsorted
  have hmatch : ∀ l : List Command, (match l with
      | [] => ([] : List Command)
      | result => result) = l := by
    intro l
    cases l <;> rfl
  by_cases hlen : (sorted.length : Int) > maxResults
  · rw [if_pos hlen, hmatch]
  · rw [if_neg hlen, hmatch]
    have hle : sorted.length ≤ maxResults.toNat := by omega
    rw [List.take_of_length_le hle]

/-- C7: `findSimilar` computes the edit distance to every registered
command name, keeps exactly the candidates within the threshold
`max(2, len(name)/3)`, orders them ascending by distance with ties broken
lexicographically by name, truncates to `maxResults`, and returns nothing
for an empty query, a non-positive `maxResults`, or when no candidate is
within the threshold. -/
theorem C7_findSimilar_characterized (n : Node Command) (name : Name)
    (maxResults : Int) :
    ((name = [] ∨ maxResults ≤ 0) → findSimilar n name maxResults = []) ∧
    ((n.collectCommands.filter
        (fun c => edSpec name c.name ≤ max 2 (name.length / 3))) = [] →
      findSimilar n name maxResults = []) ∧
    (findSimilar n name maxResults).length ≤ maxResults.toNat ∧
    (¬ (name = [] ∨ maxResults ≤ 0) →
      ∃ sortedAll : List Command,
        sortedAll.Perm (n.collectCommands.filter
          (fun c => edSpec name c.name ≤ max 2 (name.length / 3))) ∧
        sortedAll.Pairwise (fun x y =>
          edSpec name x.name < edSpec name y.name ∨
            (edSpec name x.name = edSpec name y.name ∧
              nameLe x.name y.name = true)) ∧
        findSimilar n name maxResults = sortedAll.take maxResults.toNat) := by
  have hnil : (name = [] ∨ maxResults ≤ 0) → findSimilar n name maxResults = [] := by
    intro h
    rw [findSimilar, if_pos h]
  refine ⟨hnil, ?_, ?_, ?_⟩
  · intro hempty
    by_cases h : name = [] ∨ maxResults ≤ 0
    · exact hnil h
    · rw [findSimilar_eq n name maxResults h, filter_lev_eq_filter_edSpec, hempty]
      simp [List.insertionSort]
  · by_cases h : name = [] ∨ maxResults ≤ 0
    · rw [hnil h]
      simp
    · rw [findSimilar_eq n name maxResults h, List.length_take]
      omega
  · intro h
    refine ⟨List.insertionSort (fun x y => suggestLe name x y = true)
      (n.collectCommands.filter (fun c => levenshtein name c.name ≤
        (if name.length / 3 < 2 then 2 else name.length / 3))), ?_, ?_, ?_⟩
    · rw [← filter_lev_eq_filter_edSpec]
      exact List.perm_insertionSort _ _
    · haveI htot : IsTotal Command (fun x y => suggestLe name x y = true) :=
        ⟨fun a b => suggestLe_total name a b⟩
      haveI htrans : IsTrans Command (fun x y => suggestLe name x y = true) :=
        ⟨fun a b c => suggestLe_trans name a b c⟩
      have hsorted := List.sorted_insertionSort
        (fun x y => suggestLe name x y = true)
        (n.collectCommands.filter (fun c => levenshtein name c.name ≤
          (if name.length / 3 < 2 then 2 else name.length / 3)))
      refine hsorted.imp ?_
      intro a b hab
      rw [suggestLe] at hab
      by_cases hd : levenshtein name a.name = levenshtein name b.name
      · rw [if_pos hd] at hab
        right
        rw [← levenshtein_eq_edSpec, ← levenshtein_eq_edSpec]
        exact ⟨hd, hab⟩
      · rw [if_neg hd] at hab
        simp only [decide_eq_true_eq] at hab
        left
        rw [← levenshtein_eq_edSpec, ← levenshtein_eq_edSpec]
        exact hab
    · exact findSimilar_eq n name maxResults h

theorem findSimilar_length_le (n : Node Command) (q : Name) (k : Int) :
    (findSimilar n q k).length ≤ k.toNat := by
  by_cases h : q = [] ∨ k ≤ 0
  · rw [findSimilar, if_pos h]
    simp
  · rw [findSimilar_eq n q k h, List.length_take]
    omega

theorem findSimilar_pairwise (n : Node Command) (q : Name) (k : Int) :
    (findSimilar n q k).Pairwise (fun x y =>
      edSpec q x.name < edSpec q y.name ∨
        (edSpec q x.name = edSpec q y.name ∧ nameLe x.name y.name = true)) := by
  by_cases h : q = [] ∨ k ≤ 0
  · rw [findSimilar, if_pos h]
    exact List.Pairwise.nil
  · rw [findSimilar_eq n q k h]
    refine List.Pairwise.sublist (List.take_sublist _ _) ?_
    haveI htot : IsTotal Command (fun x y => suggestLe q x y = true) :=
      ⟨fun a b => suggestLe_total q a b⟩
    haveI htrans : IsTrans Command (fun x y => suggestLe q x y = true) :=
      ⟨fun a b c => suggestLe_trans q a b c⟩
    refine (List.sorted_insertionSort _ _).imp ?_
    intro a b hab
    rw [suggestLe] at hab
    by_cases hd : levenshtein q a.name = levenshtein q b.name
    · rw [if_pos hd] at hab
      right
      rw [← levenshtein_eq_edSpec, ← levenshtein_eq_edSpec]
      exact ⟨hd, hab⟩
    · rw [if_neg hd] at hab
      simp only [decide_eq_true_eq] at hab
      left
      rw [← levenshtein_eq_edSpec, ← levenshtein_eq_edSpec]
      exact hab

theorem suggestNames_eq_map (r : Router) (q : Name) :
    r.suggestNames q = (findSimilar r.root q 3).map (fun c => c.name) := by
  rw [Router.suggestNames]
  cases h : findSimilar r.root q 3 with
  | nil => rfl
  | cons c cs => rfl

/-- C2: dispatch with zero tokens yields the no-command kind before the
index is consulted (the result is the same for every router); dispatch on
an unregistered first token yields the not-found kind carrying the
suggestion list, which holds at most 3 names sorted ascending by edit
distance to the token and then lexicographically. -/
theorem C2_dispatch_empty_and_not_found (r : Router)
    (runner : Option Err → List Command → Context → Option Err)
    (ctx : Option Err) (so se : Option Nat) :
    (r.runContextWith runner ctx [] so se = some .noCommand) ∧
    (∀ (cmdName : Name) (rest : List Name), r.root.search cmdName = none →
      r.runContextWith runner ctx (cmdName :: rest) so se =
        some (.notFound cmdName (r.suggestNames cmdName)) ∧
      (r.suggestNames cmdName).length ≤ 3 ∧
      (r.suggestNames cmdName).Pairwise (fun a b =>
        edSpec cmdName a < edSpec cmdName b ∨
          (edSpec cmdName a = edSpec cmdName b ∧ nameLe a b = true))) := by
  constructor
  · rw [Router.runContextWith]
  · intro cmdName rest hnf
    refine ⟨?_, ?_, ?_⟩
    · rw [Router.runContextWith, hnf]
    · rw [suggestNames_eq_map, List.length_map]
      have := findSimilar_length_le r.root cmdName 3
      omega
    · rw [suggestNames_eq_map]
      have hpw := findSimilar_pairwise r.root cmdName 3
      exact hpw.map _ (fun a b hab => hab)

/-- C3: a runner failure whose chain does not already contain the
command-execution-failure kind is wrapped exactly once in that kind,
tagged with the dispatched command's name; one that already contains the
kind passes through unchanged, and the wrap is idempotent (never applied
twice). -/
theorem C3_runner_error_wrapped_once (r : Router) (ctx : Option Err)
    (so se : Option Nat) (cmdName : Name) (rest : List Name)
    (cmd : Command) (e : Err)
    (hfound : r.root.search cmdName = some cmd)
    (hparse : match cmd.flags with
      | some fs => ∃ rem, fs.parse rest = .ok rem
      | none => True) :
    r.runContextWith (fun _ _ _ => some e) ctx (cmdName :: rest) so se =
      (if e.hasCommandError then some e else some (.commandError cmdName e)) ∧
    wrapRunnerError cmdName (wrapRunnerError cmdName (some e)) =
      wrapRunnerError cmdName (some e) := by
  constructor
  · rw [Router.runContextWith]
    cases hfs : cmd.flags with
    | none =>
      simp only [hfound, hfs, wrapRunnerError]
    | some fs =>
      rw [hfs] at hparse
      obtain ⟨rem, hrem⟩ := hparse
      simp only [hfound, hfs, hrem, wrapRunnerError]
  · rw [wrapRunnerError]
    by_cases hce : e.hasCommandError = true
    · rw [if_pos hce, wrapRunnerError, if_pos hce]
    · rw [if_neg hce, wrapRunnerError,
        if_pos (show (Err.commandError cmdName e).hasCommandError = true by
          rw [Err.hasCommandError])]

/-! ### Runner strategies

The cancellation context is `none` (alive) or `some e` (done with cause
`e`); with no notion of time in the embedding, a context is either done
for a whole `Execute` call or not at all. -/

/-- Embeds `SerialRunner.Execute` (`runner.go`): before each command check
the context, then run the command and stop at its first failure. -/
def serialExecute (ctx : Option Err) : List Command → Context → Option Err
  | [], _ => none
  | cmd :: rest, execCtx =>
    match ctx with
    | some e => some e
    | none =>
      match cmd.run ctx execCtx with
      | some err => some err
      | none => serialExecute ctx rest execCtx

/-- The error-scan at the end of `PipelineRunner.Execute`: first non-nil
entry of the position-indexed error array. -/
def firstSomeErr : List (Option Err) → Option Err
  | [] => none
  | some e :: _ => some e
  | none :: rest => firstSomeErr rest

/-- `errs[res.index] = res.err` over all received stage results, starting
from an all-nil array of length `n`. -/
def fillErrs (n : Nat) (results : List (Nat × Option Err)) : List (Option Err) :=
  results.foldl (fun acc r => acc.set r.1 r.2) (List.replicate n none)

/-- Error collection of `PipelineRunner.Execute`: drain the results
channel into the position-indexed array, then return the first error in
stage order. -/
def pipelineCollect (n : Nat) (results : List (Nat × Option Err)) : Option Err :=
  firstSomeErr (fillErrs n results)

/-- Embeds `PipelineRunner.Execute`: an empty list succeeds; a single
command runs directly with the given context; otherwise all stages run in
their own tasks and the first failure in stage order is returned.
`stageErr i` abstracts the result of stage `i`'s `Run` on its pipe-wired
context copy, and `order` the completion order in which stage results
arrive on the channel. -/
def pipelineExecute (ctx : Option Err) (cmds : List Command) (execCtx : Context)
    (stageErr : Nat → Option Err) (order : List Nat) : Option Err :=
  match cmds with
  | [] => none
  | [cmd] => cmd.run ctx execCtx
  | _ => pipelineCollect cmds.length (order.map (fun i => (i, stageErr i)))

/-- The per-worker context built in `ConcurrentRunner.Execute` (value
view): every field is copied from the dispatch context. -/
def concCopy (c : Context) : Context :=
  { args := c.args, flags := c.flags, stdin := c.stdin,
    stdout := c.stdout, stderr := c.stderr, logger := c.logger }

/-- Outcome of command `i` under the Concurrent policy: its `Run` on the
copied context (out-of-range indices never occur). -/
def concCmdErr (ctx : Option Err) (cmds : List Command) (execCtx : Context)
    (i : Nat) : Option Err :=
  match cmds.get? i with
  | some c => c.run ctx (concCopy execCtx)
  | none => none

/-- Embeds `ConcurrentRunner.Execute`: an empty list succeeds; a context
already done contributes `ctx.Err()` and nothing starts; otherwise every
command runs (the semaphore only bounds parallelism) and the failures,
appended in completion order `order`, are aggregated with `errors.Join`. -/
def concurrentExecute (ctx : Option Err) (cmds : List Command)
    (execCtx : Context) (order : List Nat) : Option Err :=
  match cmds with
  | [] => none
  | _ :: _ =>
    match ctx with
    | some e => errorsJoin [e]
    | none => errorsJoin (order.filterMap (concCmdErr none cmds execCtx))

/-! ### Reference view of the per-worker context copy (for the frame claim) -/

/-- The execution context seen as references: Go slices and pointers are
identified by number so that sharing is observable (`args` is the identity
of the `Args` slice backing, `flags` of the `*flag.FlagSet`, `none` = nil
pointer). -/
structure ContextRefs where
  args : Nat
  flags : Option Nat
  stdin : Option Nat
  stdout : Option Nat
  stderr : Option Nat
  logger : Option Nat

/-- The reference view of the worker-context construction in
`ConcurrentRunner.Execute` (lines building `cmdCtx`): a fresh `Context`
struct whose `Args` slice and `Flags` pointer are copied from — that is,
shared with — the dispatch context. -/
def concWorkerCtx (execCtx : ContextRefs) : ContextRefs :=
  { args := execCtx.args, flags := execCtx.flags, stdin := execCtx.stdin,
    stdout := execCtx.stdout, stderr := execCtx.stderr, logger := execCtx.logger }

/-- The context worker `w` receives: every goroutine evaluates the same
constructor, so the worker index does not enter. -/
def workerCtxOf (execCtx : ContextRefs) (w : Nat) : ContextRefs :=
  concWorkerCtx execCtx

/-- Two contexts share a flag-set: both hold the same non-nil pointer. -/
def sharedFlagSet (c1 c2 : ContextRefs) : Prop :=
  ∃ r, c1.flags = some r ∧ c2.flags = some r

/-- Two contexts share an args slice (same backing identity). -/
def sharedArgsSlice (c1 c2 : ContextRefs) : Prop :=
  c1.args = c2.args

/-! ### Signal-handler lifecycle (`signal.go`) -/

/-- State of the signal-handling machinery `setupSignalHandler` creates:
whether `signal.Stop(sigCh)` has run, whether `sigCh` has been closed, and
whether the derived context has been cancelled.  Setup leaves all three
false. -/
structure SigState where
  notifyStopped : Bool
  chClosed : Bool
  cancelled : Bool

/-- The `cleanup` closure returned by `setupSignalHandler`:
`signal.Stop(sigCh); close(sigCh); cancel()`.  Closing an already-closed
channel panics in Go, modelled as `none`. -/
def sigCleanup (s : SigState) : Option SigState :=
  if s.chClosed then none
  else some { notifyStopped := true, chClosed := true, cancelled := true }

/-- The signal state right after `setupSignalHandler` returns. -/
def sigArmed : SigState :=
  { notifyStopped := false, chClosed := false, cancelled := false }

/-- Dispatch with signal handling enabled, tracking the handler state: the
flag-parse and lookup failures exit before the handler is armed; once
armed, the deferred cleanup runs on the remaining exit paths (runner
failure and success alike). -/
def runContextWithSignal (r : Router)
    (runner : Option Err → List Command → Context → Option Err)
    (ctx : Option Err) (args : List Name)
    (stdout stderr : Option Nat) : Option Err × Option SigState :=
  match args with
  | [] => (some .noCommand, none)
  | cmdName :: cmdArgs =>
    match r.root.search cmdName with
    | none => (some (.notFound cmdName (r.suggestNames cmdName)), none)
    | some cmd =>
      match cmd.flags with
      | some fs =>
        match fs.parse cmdArgs with
        | .error e => (some (.flagParse cmdName e), none)
        | .ok rest =>
          (wrapRunnerError cmdName (runner ctx [cmd]
            { args := rest, flags := some fs, stdin := none,
              stdout := stdout, stderr := stderr, logger := r.logger }),
           if r.handleSignal then sigCleanup sigArmed else none)
      | none =>
        (wrapRunnerError cmdName (runner ctx [cmd]
          { args := cmdArgs, flags := none, stdin := none,
            stdout := stdout, stderr := stderr, logger := r.logger }),
         if r.handleSignal then sigCleanup sigArmed else none)

/-! ### Registration (`Router.Register` / `Router.RegisterWithAliases`) -/

/-- `Router.addAlias`: record an alias under its primary name in the alias
table (append to the Go map entry). -/
def addAlias : List (Name × List Name) → Name → Name → List (Name × List Name)
  | [], primary, a => [(primary, [a])]
  | (k, v) :: rest, primary, a =>
    if k = primary then (k, v ++ [a]) :: rest
    else (k, v) :: addAlias rest primary a

/-- The alias loop inside `Router.Register`: aliases declared via
`AliasProvider` that are empty or equal to the primary name are skipped
(`continue`); the rest are inserted into the index (duplicate ⇒ panic,
modelled `none`) and recorded in the alias table. -/
def registerAliasLoop (r : Router) (cmd : Command) : List Name → Option Router
  | [] => some r
  | a :: rest =>
    if a = [] ∨ a = cmd.name then registerAliasLoop r cmd rest
    else
      match r.root.insert a cmd with
      | none => none
      | some root2 =>
        registerAliasLoop
          { r with root := root2, aliases := addAlias r.aliases cmd.name a }
          cmd rest

/-- Embeds `Router.Register`: panic (`none`) on an empty name or duplicate
registration; afterwards auto-register the aliases the command declares,
if any. -/
def register (r : Router) (cmd : Command) : Option Router :=
  if cmd.name = [] then none
  else
    match r.root.insert cmd.name cmd with
    | none => none
    | some root1 =>
      match cmd.aliases with
      | none => some { r with root := root1 }
      | some als => registerAliasLoop { r with root := root1 } cmd als

/-- The explicit-alias loop of `Router.RegisterWithAliases`: an empty
alias or one equal to the command name panics (`none`); the rest are
inserted and recorded. -/
def rwaLoop (r : Router) (cmd : Command) : List Name → Option Router
  | [] => some r
  | a :: rest =>
    if a = [] then none
    else if a = cmd.name then none
    else
      match r.root.insert a cmd with
      | none => none
      | some root2 =>
        rwaLoop { r with root := root2, aliases := addAlias r.aliases cmd.name a }
          cmd rest

/-- Embeds `Router.RegisterWithAliases`: `Register` first (including any
auto-registered aliases), then the caller-supplied aliases. -/
def registerWithAliases (r : Router) (cmd : Command) (als : List Name) :
    Option Router :=
  match register r cmd with
  | none => none
  | some r1 => rwaLoop r1 cmd als

/-! ### Pipeline error-collection lemmas -/

theorem fold_set_getElem? (f : Nat → Option Err) :
    ∀ (ord : List Nat) (acc : List (Option Err)) (j : Nat),
      (ord.foldl (fun a i => a.set i (f i)) acc)[j]? =
        if j ∈ ord ∧ j < acc.length then some (f j) else acc[j]? := by
  intro ord
  induction ord with
  | nil =>
    intro acc j
    simp
  | cons i ord2 ih =>
    intro acc j
    rw [List.foldl_cons, ih, List.length_set, List.getElem?_set]
    by_cases hmem : j ∈ ord2
    · by_cases hlt : j < acc.length
      · rw [if_pos ⟨hmem, hlt⟩, if_pos ⟨List.mem_cons_of_mem _ hmem, hlt⟩]
      · rw [if_neg (show ¬ (j ∈ ord2 ∧ j < acc.length) from fun hc => hlt hc.2),
          if_neg (show ¬ (j ∈ i :: ord2 ∧ j < acc.length) from fun hc => hlt hc.2)]
        by_cases hij : i = j
        · subst hij
          rw [if_pos rfl, if_neg hlt, List.getElem?_eq_none (by omega)]
        · rw [if_neg hij]
    · rw [if_neg (by tauto)]
      by_cases hij : i = j
      · subst hij
        by_cases hlt : i < acc.length
        · rw [if_pos rfl, if_pos hlt, if_pos ⟨List.mem_cons_self i ord2, hlt⟩]
        · rw [if_pos rfl, if_neg hlt, if_neg (by tauto),
            List.getElem?_eq_none (by omega)]
      · rw [if_neg hij, if_neg (by
          intro hc
          rcases List.mem_cons.mp hc.1 with h | h
          · exact hij h.symm
          · exact hmem h)]

theorem fillErrs_eq (n : Nat) (f : Nat → Option Err) (order : List Nat)
    (horder : order.Perm (List.range n)) :
    fillErrs n (order.map (fun i => (i, f i))) = (List.range n).map f := by
  rw [fillErrs, List.foldl_map]
  apply List.ext_getElem?
  intro j
  rw [fold_set_getElem? f order (List.replicate n none) j, List.length_replicate]
  by_cases hj : j < n
  · rw [if_pos ⟨horder.mem_iff.mpr (List.mem_range.mpr hj), hj⟩,
      List.getElem?_map, List.getElem?_range hj]
    rfl
  · rw [if_neg (by tauto),
      List.getElem?_eq_none (show (List.replicate n (none : Option Err)).length ≤ j by
        rw [List.length_replicate]; omega),
      List.getElem?_eq_none (show ((List.range n).map f).length ≤ j by
        rw [List.length_map, List.length_range]; omega)]

theorem firstSomeErr_spec : ∀ (l : List (Option Err)) (i0 : Nat) (e : Err),
    l[i0]? = some (some e) → (∀ j, j < i0 → l[j]? = some none) →
    firstSomeErr l = some e := by
  intro l
  induction l with
  | nil =>
    intro i0 e h
    simp at h
  | cons hd tl ih =>
    intro i0 e h hpre
    cases i0 with
    | zero =>
      rw [List.getElem?_cons_zero] at h
      cases h
      rw [firstSomeErr]
    | succ k =>
      have h0 := hpre 0 (by omega)
      rw [List.getElem?_cons_zero] at h0
      cases h0
      rw [firstSomeErr]
      refine ih k e ?_ ?_
      · rw [List.getElem?_cons_succ] at h
        exact h
      · intro j hj
        have := hpre (j + 1) (by omega)
        rw [List.getElem?_cons_succ] at this
        exact this

/-- C4: with at least two stages, the pipeline returns the error of the
failed stage with the smallest position index, for every completion order
in which the stage results can arrive. -/
theorem C4_pipeline_first_error (ctx : Option Err) (c1 c2 : Command)
    (rest : List Command) (execCtx : Context) (stageErr : Nat → Option Err)
    (order : List Nat) (i0 : Nat) (e : Err)
    (horder : order.Perm (List.range (c1 :: c2 :: rest).length))
    (hi0 : i0 < (c1 :: c2 :: rest).length)
    (hfail : stageErr i0 = some e)
    (hmin : ∀ j, j < i0 → stageErr j = none) :
    pipelineExecute ctx (c1 :: c2 :: rest) execCtx stageErr order = some e := by
  rw [show pipelineExecute ctx (c1 :: c2 :: rest) execCtx stageErr order =
      pipelineCollect (c1 :: c2 :: rest).length
        (order.map (fun i => (i, stageErr i))) from rfl,
    pipelineCollect,
    fillErrs_eq (c1 :: c2 :: rest).length stageErr order horder]
  refine firstSomeErr_spec _ i0 e ?_ ?_
  · rw [List.getElem?_map, List.getElem?_range hi0]
    simp [hfail]
  · intro j hj
    rw [List.getElem?_map, List.getElem?_range (by omega)]
    simp [hmin j hj]

/-- C5: under the Concurrent policy (with a live context) every command's
outcome is collected — the failures gathered in any completion order are a
permutation of all commands' failures, none dropped — the aggregate is
their `errors.Join`, and each individual failure is recoverable from the
aggregate by error-chain inspection. -/
theorem C5_concurrent_aggregate (cmds : List Command) (execCtx : Context)
    (order : List Nat) (horder : order.Perm (List.range cmds.length)) :
    (order.filterMap (concCmdErr none cmds execCtx)).Perm
      ((List.range cmds.length).filterMap (concCmdErr none cmds execCtx)) ∧
    (cmds ≠ [] → concurrentExecute none cmds execCtx order =
      errorsJoin (order.filterMap (concCmdErr none cmds execCtx))) ∧
    (∀ (i : Nat) (e : Err), concCmdErr none cmds execCtx i = some e →
      ∃ E, concurrentExecute none cmds execCtx order = some E ∧ InChain e E) := by
  refine ⟨horder.filterMap _, ?_, ?_⟩
  · intro hne
    cases cmds with
    | nil => exact absurd rfl hne
    | cons c cs => rw [concurrentExecute]
  · intro i e hi
    have hlt : i < cmds.length := by
      by_contra hge
      rw [concCmdErr, List.get?_eq_none.mpr (by omega)] at hi
      cases hi
    have hmemf : e ∈ order.filterMap (concCmdErr none cmds execCtx) :=
      List.mem_filterMap.mpr
        ⟨i, horder.mem_iff.mpr (List.mem_range.mpr hlt), hi⟩
    cases cmds with
    | nil => simp at hlt
    | cons c cs =>
      rw [concurrentExecute]
      cases hfm : order.filterMap (concCmdErr none (c :: cs) execCtx) with
      | nil =>
        rw [hfm] at hmemf
        simp at hmemf
      | cons x xs =>
        rw [hfm] at hmemf
        rw [show errorsJoin (x :: xs) = some (.joined (x :: xs)) from rfl]
        exact ⟨_, rfl, InChain.joined _ e hmemf InChain.refl⟩

/-- C6 counterexample: two distinct workers of the Concurrent policy do
share a flag-set — the worker context copies the `Flags` pointer, so with
a non-nil flag set every pair of workers holds the same reference. -/
theorem C6_counterexample_workers_share_flags :
    ¬ (∀ (execCtx : ContextRefs) (w1 w2 : Nat), w1 ≠ w2 →
      ¬ sharedFlagSet (workerCtxOf execCtx w1) (workerCtxOf execCtx w2) ∧
      ¬ sharedArgsSlice (workerCtxOf execCtx w1) (workerCtxOf execCtx w2)) := by
  intro h
  exact (h ⟨0, some 1, none, none, none, none⟩ 0 1 (by decide)).1
    ⟨1, rfl, rfl⟩

/-- C6 (amended): every worker receives a freshly constructed `Context`
struct, but the construction copies the dispatch context's `Flags` pointer
and `Args` slice, so all workers share them (rather than no two sharing
them). -/
theorem C6_worker_context_shares_flags_and_args
    (execCtx : ContextRefs) (w1 w2 : Nat) :
    workerCtxOf execCtx w1 = concWorkerCtx execCtx ∧
    (workerCtxOf execCtx w1).flags = execCtx.flags ∧
    (workerCtxOf execCtx w1).args = execCtx.args ∧
    sharedArgsSlice (workerCtxOf execCtx w1) (workerCtxOf execCtx w2) ∧
    (∀ fr, execCtx.flags = some fr →
      sharedFlagSet (workerCtxOf execCtx w1) (workerCtxOf execCtx w2)) := by
  refine ⟨rfl, rfl, rfl, rfl, ?_⟩
  intro fr hfr
  exact ⟨fr, hfr, hfr⟩

/-- Closed instance of the flag-sharing clause of
`C6_worker_context_shares_flags_and_args`. -/
theorem C6_worker_context_shares_witness :
    sharedFlagSet (workerCtxOf ⟨0, some 1, none, none, none, none⟩ 0)
      (workerCtxOf ⟨0, some 1, none, none, none, none⟩ 1) :=
  (C6_worker_context_shares_flags_and_args
    ⟨0, some 1, none, none, none, none⟩ 0 1).2.2.2.2 1 rfl

/-- A command that always fails with an opaque error, and a trivial
execution context (used for concrete counterexamples). -/
def cFail : Command :=
  ⟨[], none, fun _ _ => some (.base 0), none⟩

def ctx0 : Context :=
  ⟨[], none, none, none, none, none⟩

/-- C8 counterexample: under the Concurrent policy a single failing
command's `Execute` result is the `errors.Join` aggregate, not the
command's own error — the observable result differs from running the
command directly. -/
theorem C8_counterexample_concurrent_single :
    concurrentExecute none [cFail] ctx0 [0] ≠ cFail.run none ctx0 := by
  intro h
  rw [show concurrentExecute none [cFail] ctx0 [0] =
      some (.joined [.base 0]) from rfl,
    show cFail.run none ctx0 = some (.base 0) from rfl] at h
  simp at h

/-- C8 (amended): an empty command list succeeds trivially under all three
policies; Serial (on a live context) and Pipeline run a single command
directly with the given context and return exactly its result; Concurrent
runs the single command too, but returns its failure wrapped in the
`errors.Join` aggregate rather than the error itself. -/
theorem C8_empty_and_single_command :
    (∀ (ctx : Option Err) (execCtx : Context) (f : Nat → Option Err)
        (ord : List Nat),
      serialExecute ctx [] execCtx = none ∧
      pipelineExecute ctx [] execCtx f ord = none ∧
      concurrentExecute ctx [] execCtx ord = none) ∧
    (∀ (cmd : Command) (execCtx : Context),
      serialExecute none [cmd] execCtx = cmd.run none execCtx) ∧
    (∀ (ctx : Option Err) (cmd : Command) (execCtx : Context)
        (f : Nat → Option Err) (ord : List Nat),
      pipelineExecute ctx [cmd] execCtx f ord = cmd.run ctx execCtx) ∧
    (∀ (cmd : Command) (execCtx : Context) (ord : List Nat),
      ord.Perm (List.range 1) →
      concurrentExecute none [cmd] execCtx ord =
        (match cmd.run none execCtx with
          | none => none
          | some e => some (.joined [e]))) := by
  refine ⟨fun ctx execCtx f ord => ⟨rfl, rfl, rfl⟩, ?_, ?_, ?_⟩
  · intro cmd execCtx
    rw [serialExecute]
    cases h : cmd.run none execCtx with
    | none => rw [serialExecute]
    | some e => rfl
  · intro ctx cmd execCtx f ord
    rfl
  · intro cmd execCtx ord hord
    have : ord = [0] := by
      have h1 : List.range 1 = [0] := rfl
      rw [h1] at hord
      exact List.perm_singleton.mp hord
    subst this
    rw [show concurrentExecute none [cmd] execCtx [0] =
        errorsJoin ([0].filterMap (concCmdErr none [cmd] execCtx)) from rfl,
      List.filterMap_cons,
      show concCmdErr none [cmd] execCtx 0 = cmd.run none execCtx from rfl]
    cases h : cmd.run none execCtx with
    | none => rfl
    | some e => rfl

/-- C9 counterexample: invoking the signal-handler cleanup twice is not
the same as invoking it once — the second invocation panics (Go `close`
of an already-closed channel), while the claim requires it to succeed
with the same effect. -/
theorem C9_counterexample_cleanup_not_idempotent :
    ¬ (∀ s : SigState, (sigCleanup s).bind sigCleanup = sigCleanup s) := by
  intro h
  have h2 := h sigArmed
  rw [show sigCleanup sigArmed = some ⟨true, true, true⟩ from rfl] at h2
  rw [show (some (⟨true, true, true⟩ : SigState)).bind sigCleanup =
      none from rfl] at h2
  cases h2

/-- C9 (amended): the deferred cleanup runs (once) on every dispatch exit
path after the handler is armed — for the runner-success and
runner-failure exits alike — and a single invocation stops the interrupt
watch, closes the signal channel and cancels the context; it is not
idempotent: a second invocation panics closing the already-closed
channel. -/
theorem C9_cleanup_once_on_every_exit :
    (sigCleanup sigArmed = some ⟨true, true, true⟩) ∧
    (∀ s s2, sigCleanup s = some s2 →
      s2.notifyStopped = true ∧ s2.chClosed = true ∧ s2.cancelled = true ∧
      sigCleanup s2 = none) ∧
    (∀ (r : Router) (runner : Option Err → List Command → Context → Option Err)
        (ctx : Option Err) (cmdName : Name) (cmdArgs : List Name)
        (so se : Option Nat) (cmd : Command),
      r.handleSignal = true →
      r.root.search cmdName = some cmd →
      (match cmd.flags with
        | some fs => ∃ rem, fs.parse cmdArgs = .ok rem
        | none => True) →
      (runContextWithSignal r runner ctx (cmdName :: cmdArgs) so se).2 =
        some ⟨true, true, true⟩) := by
  refine ⟨rfl, ?_, ?_⟩
  · intro s s2 h
    rw [sigCleanup] at h
    by_cases hc : s.chClosed = true
    · rw [if_pos hc] at h
      cases h
    · rw [if_neg hc] at h
      cases h
      exact ⟨rfl, rfl, rfl, rfl⟩
  · intro r runner ctx cmdName cmdArgs so se cmd hsig hfound hparse
    rw [runContextWithSignal]
    cases hfs : cmd.flags with
    | none =>
      simp only [hfound, hfs, hsig, if_pos]
      rfl
    | some fs =>
      rw [hfs] at hparse
      obtain ⟨rem, hrem⟩ := hparse
      simp only [hfound, hfs, hrem, hsig, if_pos]
      rfl

/-- C10: `Register` silently skips a declared alias that is empty or
equal to the primary name — registration succeeds exactly as if only the
primary name were inserted and the alias table stays empty of it — while
`RegisterWithAliases` panics on those same values. -/
theorem C10_register_skips_rwa_panics :
    (∀ (r : Router) (cmd : Command) (a : Name) (rest : List Name),
      (a = [] ∨ a = cmd.name) →
      registerAliasLoop r cmd (a :: rest) = registerAliasLoop r cmd rest) ∧
    (∀ (r : Router) (cmd : Command) (als : List Name),
      cmd.aliases = some als → (∀ a ∈ als, a = [] ∨ a = cmd.name) →
      cmd.name ≠ [] →
      register r cmd = (match r.root.insert cmd.name cmd with
        | none => none
        | some root1 => some { r with root := root1 })) ∧
    (∀ (r : Router) (cmd : Command) (als : List Name),
      (∃ a ∈ als, a = [] ∨ a = cmd.name) →
      registerWithAliases r cmd als = none) := by
  have hskip : ∀ (r : Router) (cmd : Command) (a : Name) (rest : List Name),
      (a = [] ∨ a = cmd.name) →
      registerAliasLoop r cmd (a :: rest) = registerAliasLoop r cmd rest := by
    intro r cmd a rest h
    rw [registerAliasLoop, if_pos h]
  have hall : ∀ (als : List Name) (r : Router) (cmd : Command),
      (∀ a ∈ als, a = [] ∨ a = cmd.name) →
      registerAliasLoop r cmd als = some r := by
    intro als
    induction als with
    | nil =>
      intro r cmd _
      rfl
    | cons a rest ih =>
      intro r cmd h
      rw [hskip r cmd a rest (h a (by simp))]
      exact ih r cmd (fun x hx => h x (by simp [hx]))
  have hbad : ∀ (als : List Name) (r : Router) (cmd : Command),
      (∃ a ∈ als, a = [] ∨ a = cmd.name) →
      rwaLoop r cmd als = none := by
    intro als
    induction als with
    | nil =>
      intro r cmd h
      simp at h
    | cons a rest ih =>
      intro r cmd h
      rw [rwaLoop]
      by_cases ha : a = []
      · rw [if_pos ha]
      · rw [if_neg ha]
        by_cases hn : a = cmd.name
        · rw [if_pos hn]
        · rw [if_neg hn]
          have hrest : ∃ x ∈ rest, x = [] ∨ x = cmd.name := by
            obtain ⟨x, hx, hbadx⟩ := h
            rcases List.mem_cons.mp hx with rfl | hx2
            · exact absurd hbadx (by tauto)
            · exact ⟨x, hx2, hbadx⟩
          cases r.root.insert a cmd with
          | none => rfl
          | some root2 => exact ih _ cmd hrest
  refine ⟨hskip, ?_, ?_⟩
  · intro r cmd als hals hgood hname
    rw [register, if_neg hname]
    cases hins : r.root.insert cmd.name cmd with
    | none => rfl
    | some root1 =>
      rw [hals]
      exact hall als _ cmd hgood
  · intro r cmd als hex
    rw [registerWithAliases]
    cases hreg : register r cmd with
    | none => rfl
    | some r1 => exact hbad als r1 cmd hex

/-! ### Concrete instances for the witnesses -/

/-- A command that always succeeds. -/
def cOk : Command := ⟨[], none, fun _ _ => none, none⟩

def cFailA : Command := ⟨[], none, fun _ _ => some (.base 1), none⟩

def cFailB : Command := ⟨[], none, fun _ _ => some (.base 2), none⟩

/-- A flagless command named "x". -/
def cmdX : Command := ⟨['x'], none, fun _ _ => none, none⟩

def leafX : Node Command := .mk ['x'] (some cmdX) []

/-- A tree with exactly "x" registered. -/
def rootX : Node Command := .mk [] none [('x', leafX)]

def routerX : Router := ⟨rootX, none, none, none, [], false⟩

theorem rootX_search_x : rootX.search ['x'] = some cmdX := by
  rw [show rootX = Node.mk [] none [('x', leafX)] from rfl,
    Node.search_cons_some
      (show Node.lookupChild [('x', leafX)] 'x' = some leafX from rfl) [] none [],
    show leafX.label = ['x'] from rfl,
    if_pos (show hasPre ['x'] ['x'] = true by decide),
    show (['x'] : Name).drop (['x'] : Name).length = [] from rfl,
    show leafX = Node.mk ['x'] (some cmdX) [] from rfl, Node.search_nil]

theorem C1_roundtrip_witness :
    ∃ t, insertAll (emptyRoot : Node Nat)
        [("generate".toList, 0), ("test".toList, 1), ("testing".toList, 2)] = some t ∧
      (∀ p ∈ [("generate".toList, 0), ("test".toList, 1), ("testing".toList, 2)],
        t.search p.1 = some p.2) ∧
      (∀ s : Name,
        s ∉ ([("generate".toList, 0), ("test".toList, 1),
          ("testing".toList, 2)].map Prod.fst) →
        (∃ p ∈ [("generate".toList, 0), ("test".toList, 1), ("testing".toList, 2)],
          s <+: p.1 ∧ s ≠ p.1) →
        t.search s = none) :=
  C1_insert_search_roundtrip
    [("generate".toList, 0), ("test".toList, 1), ("testing".toList, 2)]
    (by decide) (by decide)

theorem C3_wrapped_once_witness :
    routerX.runContextWith (fun _ _ _ => some (.base 7)) none [['x']] none none =
      (if (Err.base 7).hasCommandError then some (.base 7)
        else some (.commandError ['x'] (.base 7))) ∧
    wrapRunnerError ['x'] (wrapRunnerError ['x'] (some (.base 7))) =
      wrapRunnerError ['x'] (some (.base 7)) :=
  C3_runner_error_wrapped_once routerX none none none ['x'] [] cmdX (.base 7)
    rootX_search_x trivial

theorem C4_pipeline_witness :
    pipelineExecute none (cOk :: cOk :: []) ctx0
      (fun i => if i = 1 then some (.base 5) else none) [1, 0] = some (.base 5) :=
  C4_pipeline_first_error none cOk cOk [] ctx0
    (fun i => if i = 1 then some (.base 5) else none) [1, 0] 1 (.base 5)
    (by decide) (by decide) rfl
    (fun j hj => by
      have hj0 : j = 0 := by omega
      subst hj0
      rfl)

theorem C5_concurrent_witness :
    (([2, 0, 1] : List Nat).filterMap
        (concCmdErr none [cOk, cFailA, cFailB] ctx0)).Perm
      ((List.range ([cOk, cFailA, cFailB] : List Command).length).filterMap
        (concCmdErr none [cOk, cFailA, cFailB] ctx0)) ∧
    (([cOk, cFailA, cFailB] : List Command) ≠ [] →
      concurrentExecute none [cOk, cFailA, cFailB] ctx0 [2, 0, 1] =
        errorsJoin (([2, 0, 1] : List Nat).filterMap
          (concCmdErr none [cOk, cFailA, cFailB] ctx0))) ∧
    (∀ (i : Nat) (e : Err),
      concCmdErr none [cOk, cFailA, cFailB] ctx0 i = some e →
      ∃ E, concurrentExecute none [cOk, cFailA, cFailB] ctx0 [2, 0, 1] = some E ∧
        InChain e E) :=
  C5_concurrent_aggregate [cOk, cFailA, cFailB] ctx0 [2, 0, 1] (by decide)

end Cure
